import Mathlib

/-!
Verification of mosn (sofa-mosn) core components against its specification.

Shallow embedding of the Go sources:
* pkg/protocol/rpc/xprotocol/dubbo/dubborpc.go  (dubbo codec: SplitFrame,
  isValidDubboData, GetStreamID, SetStreamID)
* pkg/upstream/cluster/loadbalancer.go          (round robin, smooth
  weighted round robin, least active request, EDF wrapper)
* pkg/stream/sofarpc/keepalive.go               (sofaRPCKeepAlive)
* pkg/stream/xprotocol stream connection        (stream table, NewStream,
  onNewStreamDetected)
* the xprotocol health check stream filter      (OnReceive, handleIntercept)
* the protocol auto selector                    (modelled from the spec,
  validated on the vectors of test/integrate/protocol_auto_test.go)

Byte sequences are modelled as List Nat (one element per byte); machine
integer overflow is made explicit with % 2 ^ 32 and % 2 ^ 64 where the Go
code works on uint32 / uint64 / int64 values.  Randomness (math/rand) is
modelled as an explicit stream of pre-drawn numbers, consumed in order.
-/

namespace Mosn

/-! ### Dubbo codec (pkg/protocol/rpc/xprotocol/dubbo/dubborpc.go) -/

namespace Dubbo

/-- DUBBO_HEADER_LEN from dubborpc.go. -/
def DUBBO_HEADER_LEN : Nat := 16

/-- DUBBO_ID_LEN from dubborpc.go. -/
def DUBBO_ID_LEN : Nat := 8

/-- DUBBO_ID_IDX from dubborpc.go. -/
def DUBBO_ID_IDX : Nat := 4

/-- Big endian uint32 read of data[12..15], as in
binary.BigEndian.Uint32(data[12:16]). -/
def bodyLenOf (data : List Nat) : Nat :=
  data.getD 12 0 * 2 ^ 24 + data.getD 13 0 * 2 ^ 16 +
    data.getD 14 0 * 2 ^ 8 + data.getD 15 0

/-- isValidDubboData from dubborpc.go: returns (rslt, bodyLen).
The length test compares uint32(dataLen) with the uint32 sum
uint32(DUBBO_HEADER_LEN) + bodyLen, so both sides are reduced mod 2^32
exactly as the Go uint32 arithmetic does. -/
def isValidDubboData (data : List Nat) : Bool × Int :=
  if data.length < DUBBO_HEADER_LEN then (false, -1)
  else if ¬ (data.getD 0 0 = 0xda ∧ data.getD 1 0 = 0xbb) then (false, -1)
  else
    let bodyLen := bodyLenOf data
    let frameLen := (DUBBO_HEADER_LEN + bodyLen) % 2 ^ 32
    if data.length % 2 ^ 32 < frameLen then (false, -1)
    else (true, Int.ofNat bodyLen)

/-- getDubboLen from dubborpc.go: DUBBO_HEADER_LEN + bodyLen for valid
data, -1 otherwise (the sum here is Go int arithmetic, no wrap). -/
def getDubboLen (data : List Nat) : Int :=
  let r := isValidDubboData data
  if r.1 = false then -1
  else DUBBO_HEADER_LEN + r.2

/-- The SplitFrame loop of dubborpc.go, with the remaining bytes made
explicit: each iteration takes frameLen = getDubboLen of the remaining
data; while frameLen > 0 and the remaining length (dataLen) is at least
frameLen, the frame data[start:start+frameLen] is appended and consumed,
otherwise the loop stops and the rest is left untouched. -/
def splitFrameAux (data : List Nat) : List (List Nat) × List Nat :=
  if h : 0 < getDubboLen data ∧ getDubboLen data ≤ (data.length : Int) then
    (data.take (getDubboLen data).toNat ::
        (splitFrameAux (data.drop (getDubboLen data).toNat)).1,
      (splitFrameAux (data.drop (getDubboLen data).toNat)).2)
  else
    ([], data)
termination_by data.length
decreasing_by
  simp only [List.length_drop]
  omega

/-- SplitFrame from dubborpc.go (the list of whole frames found at the
front of data). -/
def SplitFrame (data : List Nat) : List (List Nat) :=
  (splitFrameAux data).1

theorem splitFrameAux_spec (data : List Nat) :
    (splitFrameAux data).1.flatten ++ (splitFrameAux data).2 = data ∧
      ¬ (0 < getDubboLen (splitFrameAux data).2 ∧
         getDubboLen (splitFrameAux data).2 ≤ ((splitFrameAux data).2.length : Int)) := by
  have main : ∀ n (data : List Nat), data.length ≤ n →
      (splitFrameAux data).1.flatten ++ (splitFrameAux data).2 = data ∧
        ¬ (0 < getDubboLen (splitFrameAux data).2 ∧
           getDubboLen (splitFrameAux data).2 ≤ ((splitFrameAux data).2.length : Int)) := by
    intro n
    induction n with
    | zero =>
      intro data hlen
      have hdata : data = [] := List.length_eq_zero.mp (Nat.le_zero.mp hlen)
      subst hdata
      rw [splitFrameAux]
      have hcond : ¬ (0 < getDubboLen ([] : List Nat) ∧
          getDubboLen ([] : List Nat) ≤ ((([] : List Nat)).length : Int)) := by
        rintro ⟨h1, h2⟩
        simp at h2
        omega
      rw [dif_neg hcond]
      exact ⟨rfl, hcond⟩
    | succ n ih =>
      intro data hlen
      rw [splitFrameAux]
      by_cases hcond : 0 < getDubboLen data ∧ getDubboLen data ≤ (data.length : Int)
      · rw [dif_pos hcond]
        have hdrop : (data.drop (getDubboLen data).toNat).length ≤ n := by
          simp only [List.length_drop]
          omega
        have hrec := ih (data.drop (getDubboLen data).toNat) hdrop
        refine ⟨?_, hrec.2⟩
        simp only [List.flatten_cons, List.append_assoc]
        rw [hrec.1]
        exact List.take_append_drop _ _
      · rw [dif_neg hcond]
        exact ⟨rfl, hcond⟩
  exact main data.length data (Nat.le_refl _)

theorem splitFrame_rest_eq (data : List Nat) :
    data.drop (SplitFrame data).flatten.length = (splitFrameAux data).2 := by
  have h := (splitFrameAux_spec data).1
  have h2 := List.drop_left ((splitFrameAux data).1.flatten) ((splitFrameAux data).2)
  rw [h] at h2
  exact h2

/-- A well formed 16 byte dubbo header (magic 0xda 0xbb) whose declared
payload length is 1, with no payload bytes following. -/
def dubboCexData : List Nat :=
  [0xda, 0xbb, 0, 0, 0, 0, 0, 0, 0, 0, 0, 0, 0, 0, 0, 1]

theorem getDubboLen_cexData : getDubboLen dubboCexData = -1 := by
  decide

theorem splitFrameAux_cexData : splitFrameAux dubboCexData = ([], dubboCexData) := by
  rw [splitFrameAux]
  rw [dif_neg]
  rintro ⟨hp, _⟩
  rw [getDubboLen_cexData] at hp
  exact absurd hp (by decide)

/-! #### Decimal printing and parsing (fmt.Sprintf with %d, strconv.ParseInt) -/

/-- The digit extraction loop of integer decimal formatting: least
significant digit first.  The fuel argument makes the recursion
structural; fuel = n is always enough since a number n has at most n
decimal digits. -/
def decDigitsGo : Nat → Nat → List Nat
  | 0, _ => []
  | fuel + 1, n => if n = 0 then [] else n % 10 :: decDigitsGo fuel (n / 10)

/-- Little endian decimal digits of n (empty for 0). -/
def decDigitsLE (n : Nat) : List Nat :=
  decDigitsGo n n

/-- fmt.Sprintf with verb %d applied to a non negative integer: its
decimal digit characters, most significant first ("0" for zero). -/
def natToDec (n : Nat) : String :=
  String.mk ((if n = 0 then [0] else (decDigitsLE n).reverse).map
    (fun d => Char.ofNat (48 + d)))

/-- The digit test of strconv.ParseInt for base 10. -/
def charIsDigit (c : Char) : Bool :=
  48 ≤ c.toNat && c.toNat ≤ 57

/-- The sign handling of strconv.ParseInt: a leading minus or plus is
consumed (minus remembered), everything else is left for the digits. -/
def parseSign : List Char → Bool × List Char
  | [] => (false, [])
  | c :: rest =>
    if c = '-' then (true, rest)
    else if c = '+' then (false, rest) else (false, c :: rest)

/-- The digit accumulation loop of strconv.ParseInt for base 10. -/
def decValue (ds : List Char) : Nat :=
  ds.foldl (fun acc c => acc * 10 + (c.toNat - 48)) 0

/-- strconv.ParseInt(s, 10, 64): optional sign, at least one decimal
digit, magnitude within int64 range; any other input is an error
(modelled as none). -/
def parseInt64 (s : String) : Option Int :=
  if (parseSign s.toList).2.isEmpty then none
  else if (parseSign s.toList).2.all charIsDigit then
    if (parseSign s.toList).1 then
      if decValue (parseSign s.toList).2 ≤ 2 ^ 63 then
        some (-(decValue (parseSign s.toList).2 : Int))
      else none
    else
      if decValue (parseSign s.toList).2 ≤ 2 ^ 63 - 1 then
        some ((decValue (parseSign s.toList).2 : Int))
      else none
  else none

/-- Big endian uint64 read of data[4..11], as in
binary.BigEndian.Uint64(data[DUBBO_ID_IDX : DUBBO_ID_IDX+DUBBO_ID_LEN]). -/
def readIDU64 (data : List Nat) : Nat :=
  data.getD 4 0 * 2 ^ 56 + data.getD 5 0 * 2 ^ 48 +
    data.getD 6 0 * 2 ^ 40 + data.getD 7 0 * 2 ^ 32 +
    data.getD 8 0 * 2 ^ 24 + data.getD 9 0 * 2 ^ 16 +
    data.getD 10 0 * 2 ^ 8 + data.getD 11 0

/-- GetStreamID from dubborpc.go: empty string on invalid data, else
the decimal rendering of the big endian uint64 at bytes 4..11. -/
def GetStreamID (data : List Nat) : String :=
  if (isValidDubboData data).1 = false then ""
  else natToDec (readIDU64 data)

/-- Byte j (big endian, j = 0..7) of the 8 byte two's complement
encoding that binary.Write produces for an int64 value. -/
def int64byte (v : Nat) (j : Nat) : Nat :=
  v / 2 ^ (8 * (7 - j)) % 2 ^ 8

/-- The write loop of SetStreamID: data[DUBBO_ID_IDX+i] = reqIDStr[i]
for i = 0..7 (the loop bound i < DUBBO_ID_LEN && i <= reqIDStrLen runs
i = 0..7 since binary.Write always produces reqIDStrLen = 8 bytes for an
int64 value). -/
def writeID (data : List Nat) (v : Nat) : List Nat :=
  ((((((((data.set 4 (int64byte v 0)).set 5 (int64byte v 1)).set 6
    (int64byte v 2)).set 7 (int64byte v 3)).set 8
    (int64byte v 4)).set 9 (int64byte v 5)).set 10
    (int64byte v 6)).set 11 (int64byte v 7))

/-- SetStreamID from dubborpc.go: on invalid data or unparsable id the
data is returned unchanged; otherwise the 8 bytes of the big endian
int64 encoding (two's complement for negative values) are written into
positions 4..11. -/
def SetStreamID (data : List Nat) (streamID : String) : List Nat :=
  if (isValidDubboData data).1 = false then data
  else
    match parseInt64 streamID with
    | none => data
    | some reqID => writeID data ((reqID % (2 ^ 64 : Int)).toNat)

/-- The numeric value of a little endian decimal digit list. -/
def ofDigitsLE (l : List Nat) : Nat :=
  l.foldr (fun d acc => d + 10 * acc) 0

theorem ofDigitsLE_decDigitsGo : ∀ fuel n, n ≤ fuel →
    ofDigitsLE (decDigitsGo fuel n) = n := by
  intro fuel
  induction fuel with
  | zero =>
    intro n hn
    have : n = 0 := Nat.le_zero.mp hn
    subst this
    rfl
  | succ fuel ih =>
    intro n hn
    rw [decDigitsGo]
    by_cases h0 : n = 0
    · subst h0
      simp [ofDigitsLE]
    · rw [if_neg h0]
      have hdiv : n / 10 ≤ fuel := by
        have := Nat.div_lt_self (Nat.pos_of_ne_zero h0) (by omega : 1 < 10)
        omega
      have hrec := ih (n / 10) hdiv
      simp only [ofDigitsLE, List.foldr_cons] at hrec ⊢
      rw [hrec]
      omega

theorem decDigitsGo_lt_ten : ∀ fuel n, ∀ d ∈ decDigitsGo fuel n, d < 10 := by
  intro fuel
  induction fuel with
  | zero =>
    intro n d hd
    simp [decDigitsGo] at hd
  | succ fuel ih =>
    intro n d hd
    rw [decDigitsGo] at hd
    by_cases h0 : n = 0
    · rw [if_pos h0] at hd
      simp at hd
    · rw [if_neg h0] at hd
      rcases List.mem_cons.mp hd with h | h
      · subst h
        exact Nat.mod_lt _ (by omega)
      · exact ih _ _ h

theorem foldl_reverse_ofDigitsLE (l : List Nat) :
    l.reverse.foldl (fun acc d => acc * 10 + d) 0 = ofDigitsLE l := by
  induction l with
  | nil => rfl
  | cons d l ih =>
    simp only [List.reverse_cons, List.foldl_append, List.foldl_cons, List.foldl_nil, ih,
      ofDigitsLE, List.foldr_cons]
    omega

theorem charOfDigit_toNat (d : Nat) (hd : d < 10) :
    (Char.ofNat (48 + d)).toNat = 48 + d := by
  interval_cases d <;> decide

theorem charOfDigit_ne_minus (d : Nat) (hd : d < 10) : Char.ofNat (48 + d) ≠ '-' := by
  interval_cases d <;> decide

theorem charOfDigit_ne_plus (d : Nat) (hd : d < 10) : Char.ofNat (48 + d) ≠ '+' := by
  interval_cases d <;> decide

theorem charIsDigit_charOfDigit (d : Nat) (hd : d < 10) :
    charIsDigit (Char.ofNat (48 + d)) = true := by
  interval_cases d <;> decide

theorem foldl_parse_map (l : List Nat) (hl : ∀ d ∈ l, d < 10) : ∀ acc : Nat,
    (l.map (fun d => Char.ofNat (48 + d))).foldl
        (fun acc c => acc * 10 + (c.toNat - 48)) acc =
      l.foldl (fun acc d => acc * 10 + d) acc := by
  induction l with
  | nil =>
    intro acc
    rfl
  | cons d l ih =>
    intro acc
    have hd : d < 10 := hl d (List.mem_cons_self _ _)
    simp only [List.map_cons, List.foldl_cons]
    rw [charOfDigit_toNat d hd]
    have : 48 + d - 48 = d := by omega
    rw [this]
    exact ih (fun x hx => hl x (List.mem_cons_of_mem _ hx)) _

theorem parseSign_digits (c : Nat) (cs : List Char) (hc : c < 10) :
    parseSign (Char.ofNat (48 + c) :: cs) = (false, Char.ofNat (48 + c) :: cs) := by
  rw [parseSign]
  rw [if_neg (charOfDigit_ne_minus c hc), if_neg (charOfDigit_ne_plus c hc)]

/-- Parsing inverts decimal printing for values in int64 range. -/
theorem parseInt64_natToDec (n : Nat) (hn : n ≤ 2 ^ 63 - 1) :
    parseInt64 (natToDec n) = some (n : Int) := by
  by_cases h0 : n = 0
  · subst h0
    decide
  · have hne : decDigitsLE n ≠ [] := by
      cases hfuel : n with
      | zero => exact absurd hfuel h0
      | succ m =>
        rw [decDigitsLE, decDigitsGo]
        rw [if_neg (by omega : m + 1 ≠ 0)]
        simp
    have hlt : ∀ d ∈ (decDigitsLE n).reverse, d < 10 := by
      intro d hd
      exact decDigitsGo_lt_ten n n d (List.mem_reverse.mp hd)
    obtain ⟨c, cs, hcons⟩ := List.exists_cons_of_ne_nil
      (by simpa using mt List.reverse_eq_nil_iff.mp hne :
        (decDigitsLE n).reverse ≠ [])
    have hc : c < 10 := hlt c (by rw [hcons]; exact List.mem_cons_self _ _)
    have hlt2 : ∀ d ∈ c :: cs, d < 10 := by
      rw [← hcons]
      exact hlt
    rw [natToDec, if_neg h0, hcons]
    have htl : (String.mk ((c :: cs).map (fun d => Char.ofNat (48 + d)))).toList =
        (c :: cs).map (fun d => Char.ofNat (48 + d)) := rfl
    have hsign : parseSign ((c :: cs).map (fun d => Char.ofNat (48 + d))) =
        (false, (c :: cs).map (fun d => Char.ofNat (48 + d))) := by
      simp only [List.map_cons]
      rw [parseSign_digits c _ hc]
    have hempty : ((c :: cs).map (fun d => Char.ofNat (48 + d))).isEmpty = false := by
      simp
    have hall : ((c :: cs).map (fun d => Char.ofNat (48 + d))).all charIsDigit = true := by
      refine List.all_eq_true.mpr fun ch hch => ?_
      obtain ⟨d, hd, rfl⟩ := List.mem_map.mp hch
      exact charIsDigit_charOfDigit d (hlt2 d hd)
    have hv : decValue ((c :: cs).map (fun d => Char.ofNat (48 + d))) = n := by
      rw [decValue, foldl_parse_map _ hlt2, ← hcons, foldl_reverse_ofDigitsLE,
        decDigitsLE, ofDigitsLE_decDigitsGo n n (Nat.le_refl n)]
    rw [parseInt64]
    simp only [htl, hsign, hempty, hall, hv, Bool.false_eq_true, if_false, if_true]
    rw [if_pos hn]

theorem int64byte_recompose (v : Nat) (hv : v < 2 ^ 64) :
    int64byte v 0 * 2 ^ 56 + int64byte v 1 * 2 ^ 48 + int64byte v 2 * 2 ^ 40 +
      int64byte v 3 * 2 ^ 32 + int64byte v 4 * 2 ^ 24 + int64byte v 5 * 2 ^ 16 +
      int64byte v 6 * 2 ^ 8 + int64byte v 7 = v := by
  simp only [int64byte]
  norm_num
  omega

theorem isValid_length {data : List Nat} (h : (isValidDubboData data).1 = true) :
    16 ≤ data.length := by
  by_contra hlt
  rw [isValidDubboData, if_pos (by rw [DUBBO_HEADER_LEN]; omega)] at h
  exact absurd h (by decide)

theorem exists_sixteen {data : List Nat} (h : 16 ≤ data.length) :
    ∃ a0 a1 a2 a3 a4 a5 a6 a7 a8 a9 a10 a11 a12 a13 a14 a15 rest,
      data = a0 :: a1 :: a2 :: a3 :: a4 :: a5 :: a6 :: a7 :: a8 :: a9 :: a10 ::
        a11 :: a12 :: a13 :: a14 :: a15 :: rest := by
  rcases data with _ | ⟨a0, data⟩
  · simp at h
  rcases data with _ | ⟨a1, data⟩
  · simp at h
  rcases data with _ | ⟨a2, data⟩
  · simp at h
  rcases data with _ | ⟨a3, data⟩
  · simp at h
  rcases data with _ | ⟨a4, data⟩
  · simp at h
  rcases data with _ | ⟨a5, data⟩
  · simp at h
  rcases data with _ | ⟨a6, data⟩
  · simp at h
  rcases data with _ | ⟨a7, data⟩
  · simp at h
  rcases data with _ | ⟨a8, data⟩
  · simp at h
  rcases data with _ | ⟨a9, data⟩
  · simp at h
  rcases data with _ | ⟨a10, data⟩
  · simp at h
  rcases data with _ | ⟨a11, data⟩
  · simp at h
  rcases data with _ | ⟨a12, data⟩
  · simp at h
  rcases data with _ | ⟨a13, data⟩
  · simp at h
  rcases data with _ | ⟨a14, data⟩
  · simp at h
  rcases data with _ | ⟨a15, data⟩
  · simp at h
  exact ⟨a0, a1, a2, a3, a4, a5, a6, a7, a8, a9, a10, a11, a12, a13, a14, a15,
    data, rfl⟩

/-- Writing the id bytes then reading them back yields the written
value, and every byte outside positions 4..11 is untouched. -/
theorem roundtrip_core (data : List Nat) (v : Nat) (hlen : 16 ≤ data.length)
    (hv : v < 2 ^ 64) :
    readIDU64 (writeID data v) = v ∧
    (writeID data v).length = data.length ∧
    (∀ j : Nat, j < 4 ∨ 12 ≤ j → (writeID data v).getD j 0 = data.getD j 0) := by
  obtain ⟨a0, a1, a2, a3, a4, a5, a6, a7, a8, a9, a10, a11, a12, a13, a14, a15,
    rest, rfl⟩ := exists_sixteen hlen
  refine ⟨?_, ?_, ?_⟩
  · have hr : readIDU64 (a0 :: a1 :: a2 :: a3 :: int64byte v 0 :: int64byte v 1 ::
      int64byte v 2 :: int64byte v 3 :: int64byte v 4 :: int64byte v 5 ::
      int64byte v 6 :: int64byte v 7 :: a12 :: a13 :: a14 :: a15 :: rest) =
        int64byte v 0 * 2 ^ 56 + int64byte v 1 * 2 ^ 48 + int64byte v 2 * 2 ^ 40 +
        int64byte v 3 * 2 ^ 32 + int64byte v 4 * 2 ^ 24 + int64byte v 5 * 2 ^ 16 +
        int64byte v 6 * 2 ^ 8 + int64byte v 7 := rfl
    show readIDU64 (a0 :: a1 :: a2 :: a3 :: int64byte v 0 :: int64byte v 1 ::
      int64byte v 2 :: int64byte v 3 :: int64byte v 4 :: int64byte v 5 ::
      int64byte v 6 :: int64byte v 7 :: a12 :: a13 :: a14 :: a15 :: rest) = v
    rw [hr]
    exact int64byte_recompose v hv
  · rfl
  · intro j hj
    show (a0 :: a1 :: a2 :: a3 :: int64byte v 0 :: int64byte v 1 ::
      int64byte v 2 :: int64byte v 3 :: int64byte v 4 :: int64byte v 5 ::
      int64byte v 6 :: int64byte v 7 :: a12 :: a13 :: a14 :: a15 :: rest).getD j 0 =
      (a0 :: a1 :: a2 :: a3 :: a4 :: a5 :: a6 :: a7 :: a8 :: a9 :: a10 :: a11 ::
        a12 :: a13 :: a14 :: a15 :: rest).getD j 0
    rcases hj with hj | hj
    · interval_cases j <;> rfl
    · obtain ⟨k, rfl⟩ := Nat.exists_eq_add_of_le hj
      show (([a0, a1, a2, a3, int64byte v 0, int64byte v 1, int64byte v 2,
        int64byte v 3, int64byte v 4, int64byte v 5, int64byte v 6,
        int64byte v 7] ++ (a12 :: a13 :: a14 :: a15 :: rest)).getD (12 + k) 0) =
        (([a0, a1, a2, a3, a4, a5, a6, a7, a8, a9, a10, a11] ++
          (a12 :: a13 :: a14 :: a15 :: rest)).getD (12 + k) 0)
      rw [List.getD_append_right _ _ 0 (12 + k) (by simp),
        List.getD_append_right _ _ 0 (12 + k) (by simp)]
      norm_num

/-- Writing the id bytes changes none of the fields that
isValidDubboData inspects. -/
theorem isValid_writeID (data : List Nat) (v : Nat) (hlen : 16 ≤ data.length) :
    isValidDubboData (writeID data v) = isValidDubboData data := by
  obtain ⟨a0, a1, a2, a3, a4, a5, a6, a7, a8, a9, a10, a11, a12, a13, a14, a15,
    rest, rfl⟩ := exists_sixteen hlen
  rfl

/-- C1 (amended): SplitFrame consumes a prefix of the buffer made of
whole frames; the remaining bytes never start with a complete valid
dubbo frame (they are shorter than the 16 byte header, fail the magic or
length validation, or are fewer than the declared total frame length),
though they may well be 16 bytes or longer. -/
theorem splitFrame_frame_boundaries (data : List Nat) :
    (SplitFrame data).flatten <+: data ∧
      ¬ (0 < getDubboLen (data.drop (SplitFrame data).flatten.length) ∧
         getDubboLen (data.drop (SplitFrame data).flatten.length) ≤
           ((data.drop (SplitFrame data).flatten.length).length : Int)) := by
  have h := splitFrameAux_spec data
  have hrest := splitFrame_rest_eq data
  constructor
  · exact ⟨(splitFrameAux data).2, h.1⟩
  · rw [hrest]
    exact h.2

/-- C1 (counterexample): on a well formed 16 byte header that declares a
1 byte payload which has not arrived yet, SplitFrame returns no frames
and the leftover is the whole 16 byte buffer, which is not shorter than
the 16 byte minimum header length, contradicting the claim as stated. -/
theorem splitFrame_leftover_cex :
    ¬ (((SplitFrame dubboCexData).flatten <+: dubboCexData) ∧
       (dubboCexData.drop (SplitFrame dubboCexData).flatten.length).length <
         DUBBO_HEADER_LEN) := by
  rintro ⟨-, h2⟩
  have h : SplitFrame dubboCexData = [] := by
    rw [SplitFrame, splitFrameAux_cexData]
  rw [h] at h2
  revert h2
  decide

/-- C9 (amended): for a valid dubbo frame and a stream id string in
canonical decimal form (the rendering of a value below 2^63),
GetStreamID inverts SetStreamID, and SetStreamID touches only the id
bytes 4..11. -/
theorem streamID_roundtrip (data : List Nat) (v : Nat)
    (hval : (isValidDubboData data).1 = true) (hv : v < 2 ^ 63) :
    GetStreamID (SetStreamID data (natToDec v)) = natToDec v ∧
    (SetStreamID data (natToDec v)).length = data.length ∧
    (∀ j : Nat, j < 4 ∨ 12 ≤ j →
      (SetStreamID data (natToDec v)).getD j 0 = data.getD j 0) := by
  have hlen := isValid_length hval
  have hparse := parseInt64_natToDec v (by omega)
  have hset : SetStreamID data (natToDec v) = writeID data v := by
    rw [SetStreamID, if_neg (by rw [hval]; simp), hparse]
    have hmod : (((v : Int)) % (2 ^ 64 : Int)).toNat = v := by omega
    show writeID data (((v : Int)) % (2 ^ 64 : Int)).toNat = writeID data v
    rw [hmod]
  rw [hset]
  have hcore := roundtrip_core data v hlen (by omega)
  refine ⟨?_, hcore.2.1, hcore.2.2⟩
  rw [GetStreamID, isValid_writeID data v hlen, if_neg (by rw [hval]; simp),
    hcore.1]

/-- A valid 16 byte dubbo frame with empty payload and id zero. -/
def dubboZeroFrame : List Nat :=
  [0xda, 0xbb, 0, 0, 0, 0, 0, 0, 0, 0, 0, 0, 0, 0, 0, 0]

theorem streamID_roundtrip_witness :
    (isValidDubboData dubboZeroFrame).1 = true ∧ 3 < 2 ^ 63 ∧
    GetStreamID (SetStreamID dubboZeroFrame (natToDec 3)) = natToDec 3 :=
  ⟨by decide, by decide,
    (streamID_roundtrip dubboZeroFrame 3 (by decide) (by decide)).1⟩

/-- C9 (counterexample): the stream id string "007" parses as the
decimal non negative 64 bit integer 7, yet the roundtrip returns "7",
not "007": the claim as stated fails on non canonical decimal strings. -/
theorem streamID_roundtrip_cex :
    (isValidDubboData dubboZeroFrame).1 = true ∧
    parseInt64 "007" = some (7 : Int) ∧
    GetStreamID (SetStreamID dubboZeroFrame "007") ≠ "007" := by
  refine ⟨by decide, by decide, ?_⟩
  decide

end Dubbo

/-! ### Proxy response flags and isRequestFailed

Only the table driven test TestIsRequestFailed (in the proxy package) is
part of the sources; the definitions below reproduce the spec contract
and are checked against every row of that test table. -/

namespace Proxy

/-- The response flags listed in the spec (section 4.10). -/
inductive ResponseFlag where
  | noHealthyUpstream
  | upstreamRequestTimeout
  | upstreamRemoteReset
  | upstreamConnectionFailure
  | upstreamConnectionTermination
  | noRouteFound
  | delayInjected
  | faultInjected
  | rateLimited
deriving DecidableEq, Repr

open ResponseFlag

/-- Modelled from the spec: the proxy's isRequestFailed (its
implementation is not under src, only the test TestIsRequestFailed is):
true for any response flag except UPSTREAM_REQUEST_TIMEOUT,
UPSTREAM_REMOTE_RESET, UPSTREAM_CONNECTION_TERMINATION and
DELAY_INJECTED. -/
def excludedFlag (f : ResponseFlag) : Bool :=
  f = upstreamRequestTimeout ∨ f = upstreamRemoteReset ∨
    f = upstreamConnectionTermination ∨ f = delayInjected

/-- Modelled from the spec: isRequestFailed over the set of response
flags accumulated in the request info by SetResponseFlag. -/
def isRequestFailed (flags : List ResponseFlag) : Bool :=
  flags.any (fun f => ¬ excludedFlag f)

/-- The rows of TestIsRequestFailed in the sources (flag sets with the
expected isRequestFailed outcome). -/
def isRequestFailedTestCases : List (List ResponseFlag × Bool) :=
  [([noHealthyUpstream], true),
   ([upstreamRequestTimeout], false),
   ([upstreamRemoteReset], false),
   ([noRouteFound], true),
   ([delayInjected], false),
   ([faultInjected], true),
   ([rateLimited], true),
   ([delayInjected, faultInjected], true),
   ([upstreamRequestTimeout, noHealthyUpstream], true),
   ([upstreamConnectionTermination, upstreamRemoteReset], false)]

/-- C3: isRequestFailed is true exactly when some response flag outside
the excluded set {UPSTREAM_REQUEST_TIMEOUT, UPSTREAM_REMOTE_RESET,
UPSTREAM_CONNECTION_TERMINATION, DELAY_INJECTED} is present, and this
contract reproduces every row of TestIsRequestFailed. -/
theorem isRequestFailed_spec :
    (∀ flags : List ResponseFlag,
      isRequestFailed flags = true ↔
        ∃ f ∈ flags, f ∉ [ResponseFlag.upstreamRequestTimeout,
          ResponseFlag.upstreamRemoteReset,
          ResponseFlag.upstreamConnectionTermination,
          ResponseFlag.delayInjected]) ∧
    isRequestFailedTestCases.all
      (fun tc => isRequestFailed tc.1 == tc.2) = true := by
  constructor
  · intro flags
    rw [isRequestFailed, List.any_eq_true]
    constructor
    · rintro ⟨f, hf, hex⟩
      refine ⟨f, hf, ?_⟩
      revert hex
      cases f <;> decide
    · rintro ⟨f, hf, hex⟩
      refine ⟨f, hf, ?_⟩
      revert hex
      cases f <;> decide
  · decide

end Proxy

/-! ### Protocol auto selector

stream.SelectStreamFactoryProtocol and the HTTP/1 and HTTP/2 recognizers
are not under src (only the integration test TestProtocolHttp1 /
TestProtocolHttp2 exercising them is); they are modelled here from the
spec, sections 4.4 and 4.5, and validated on the inputs of those tests. -/

namespace AutoSelect

/-- The protocols the modelled selector can pick. -/
inductive Proto where
  | http1
  | http2
deriving DecidableEq, Repr

/-- matchProtocol result: MATCH, AGAIN (need more data) or FAIL. -/
inductive MatchResult where
  | matched
  | again
  | failed
deriving DecidableEq, Repr

/-- The 24 byte HTTP/2 client preface "PRI * HTTP/2.0\r\n\r\nSM\r\n\r\n". -/
def prefaceChars : List Char :=
  ['P', 'R', 'I', ' ', '*', ' ', 'H', 'T', 'T', 'P', '/', '2', '.', '0',
   '\r', '\n', '\r', '\n', 'S', 'M', '\r', '\n', '\r', '\n']

/-- Modelled from the spec: the HTTP/1 method prefixes the recognizer
accepts ("GET|POST|..." in section 4.4). -/
def httpMethods : List (List Char) :=
  [['G', 'E', 'T'], ['P', 'O', 'S', 'T'], ['P', 'U', 'T'],
   ['D', 'E', 'L', 'E', 'T', 'E'], ['H', 'E', 'A', 'D'],
   ['O', 'P', 'T', 'I', 'O', 'N', 'S'], ['P', 'A', 'T', 'C', 'H'],
   ['C', 'O', 'N', 'N', 'E', 'C', 'T'], ['T', 'R', 'A', 'C', 'E']]

/-- Modelled from the spec: the HTTP/1 recognizer: MATCH when some
method is a prefix of the input, AGAIN when the input is a prefix of
some method (more bytes could complete it), FAIL otherwise. -/
def matchHTTP1 (b : List Char) : MatchResult :=
  if httpMethods.any (fun m => m.isPrefixOf b) then .matched
  else if httpMethods.any (fun m => b.isPrefixOf m) then .again
  else .failed

/-- Modelled from the spec: the HTTP/2 recognizer keyed on the client
preface magic. -/
def matchHTTP2 (b : List Char) : MatchResult :=
  if prefaceChars.isPrefixOf b then .matched
  else if b.isPrefixOf prefaceChars then .again
  else .failed

/-- The selector outcome: a protocol, EAGAIN or FAILED. -/
inductive SelectResult where
  | prot (p : Proto)
  | eagain
  | efailed
deriving DecidableEq, Repr

/-- Modelled from the spec (section 4.5): consult every codec's
recognizer; any MATCH selects that codec's protocol, otherwise AGAIN
from some codec yields EAGAIN, otherwise FAILED. -/
def selectProtocol (b : List Char) : SelectResult :=
  if matchHTTP1 b = .matched then .prot .http1
  else if matchHTTP2 b = .matched then .prot .http2
  else if matchHTTP1 b = .again ∨ matchHTTP2 b = .again then .eagain
  else .efailed

/-- What the connection layer does with the selector outcome. -/
inductive SelectorAction where
  | useProtocol (p : Proto)
  | waitForMoreData
  | closeConnection
deriving DecidableEq, Repr

/-- Modelled from the spec (section 4.5): MATCH installs the protocol,
AGAIN waits for more bytes, all FAIL closes the connection with
LOCAL_CLOSE. -/
def selectorAction : SelectResult → SelectorAction
  | .prot p => .useProtocol p
  | .eagain => .waitForMoreData
  | .efailed => .closeConnection

theorem no_method_prefix_of_preface :
    ∀ m ∈ httpMethods, ¬ (m <+: prefaceChars) := by
  decide

theorem methods_no_proper_prefix :
    ∀ m ∈ httpMethods, ∀ m2 ∈ httpMethods, m <+: m2 → m = m2 := by
  decide

theorem matchHTTP1_of_method (m : List Char) (hm : m ∈ httpMethods)
    (rest : List Char) : matchHTTP1 (m ++ rest) = .matched := by
  rw [matchHTTP1, if_pos]
  rw [List.any_eq_true]
  exact ⟨m, hm, List.isPrefixOf_iff_prefix.mpr (List.prefix_append m rest)⟩

theorem prefix_of_append_left {m l₁ l₂ : List Char} (h : m <+: l₁ ++ l₂)
    (hlen : m.length ≤ l₁.length) : m <+: l₁ := by
  rw [List.prefix_iff_eq_take] at h ⊢
  rw [List.take_append_of_le_length hlen] at h
  exact h

theorem method_length_le (m : List Char) (hm : m ∈ httpMethods) :
    m.length ≤ 7 := by
  fin_cases hm <;> decide

theorem matchHTTP1_of_preface (rest : List Char) :
    matchHTTP1 (prefaceChars ++ rest) = .failed := by
  rw [matchHTTP1, if_neg, if_neg]
  · rw [List.any_eq_true]
    rintro ⟨m, hm, hpre⟩
    have hp := List.isPrefixOf_iff_prefix.mp hpre
    have hlen := hp.length_le
    have hmlen := method_length_le m hm
    revert hlen
    simp [prefaceChars]
    omega
  · rw [List.any_eq_true]
    rintro ⟨m, hm, hpre⟩
    have hp := List.isPrefixOf_iff_prefix.mp hpre
    have hmlen := method_length_le m hm
    have hp2 : m <+: prefaceChars :=
      prefix_of_append_left hp (by simp [prefaceChars]; omega)
    exact no_method_prefix_of_preface m hm hp2

theorem matchHTTP2_of_preface (rest : List Char) :
    matchHTTP2 (prefaceChars ++ rest) = .matched := by
  rw [matchHTTP2, if_pos]
  exact List.isPrefixOf_iff_prefix.mpr (List.prefix_append _ _)

theorem matchHTTP2_not_matched_of_short {b : List Char}
    (hlen : b.length < prefaceChars.length) : matchHTTP2 b ≠ .matched := by
  rw [matchHTTP2]
  by_cases h : prefaceChars.isPrefixOf b
  · have := (List.isPrefixOf_iff_prefix.mp h).length_le
    omega
  · rw [if_neg h]
    by_cases h2 : b.isPrefixOf prefaceChars
    · rw [if_pos h2]
      decide
    · rw [if_neg h2]
      decide

/-- C2: the auto selector picks HTTP/2 on inputs starting with the
client preface, HTTP/1 on inputs starting with a method prefix, answers
EAGAIN on proper prefixes of a recognizer magic, and FAILED — which the
connection layer turns into a close — when every recognizer fails. -/
theorem protocol_auto_select_spec :
    (∀ rest, selectProtocol (prefaceChars ++ rest) = .prot .http2) ∧
    (∀ m ∈ httpMethods, ∀ rest, selectProtocol (m ++ rest) = .prot .http1) ∧
    (∀ b : List Char,
      (b <+: prefaceChars ∧ b.length < prefaceChars.length) ∨
        (∃ m ∈ httpMethods, b <+: m ∧ b.length < m.length) →
      selectProtocol b = .eagain) ∧
    (∀ b : List Char, matchHTTP1 b = .failed → matchHTTP2 b = .failed →
      selectProtocol b = .efailed ∧
      selectorAction (selectProtocol b) = .closeConnection) := by
  refine ⟨?_, ?_, ?_, ?_⟩
  · intro rest
    rw [selectProtocol, matchHTTP1_of_preface, matchHTTP2_of_preface]
    simp
  · intro m hm rest
    rw [selectProtocol, matchHTTP1_of_method m hm rest]
    simp
  · intro b hb
    rcases hb with ⟨hpre, hlen⟩ | ⟨m0, hm0, hpre, hlen⟩
    · have hh2 : matchHTTP2 b = .again := by
        rw [matchHTTP2, if_neg, if_pos (List.isPrefixOf_iff_prefix.mpr hpre)]
        intro h
        have := (List.isPrefixOf_iff_prefix.mp h).length_le
        omega
      have hany : httpMethods.any (fun m => m.isPrefixOf b) = false := by
        rw [List.any_eq_false]
        intro m hm hmp
        exact no_method_prefix_of_preface m hm
          ((List.isPrefixOf_iff_prefix.mp hmp).trans hpre)
      have hh1 : matchHTTP1 b ≠ .matched := by
        rw [matchHTTP1, hany]
        by_cases h2 : httpMethods.any (fun m => b.isPrefixOf m)
        · simp [h2]
        · simp [h2]
      rw [selectProtocol, if_neg hh1, if_neg, if_pos (Or.inr hh2)]
      rw [hh2]
      decide
    · have hmlen := method_length_le m0 hm0
      have hany : httpMethods.any (fun m => m.isPrefixOf b) = false := by
        rw [List.any_eq_false]
        intro m hm hmp
        have hmm0 : m <+: m0 := (List.isPrefixOf_iff_prefix.mp hmp).trans hpre
        have heq := methods_no_proper_prefix m hm m0 hm0 hmm0
        subst heq
        have := (List.isPrefixOf_iff_prefix.mp hmp).length_le
        omega
      have hh1 : matchHTTP1 b = .again := by
        rw [matchHTTP1, hany]
        simp only [Bool.false_eq_true, if_false]
        rw [if_pos]
        rw [List.any_eq_true]
        exact ⟨m0, hm0, List.isPrefixOf_iff_prefix.mpr hpre⟩
      have hh2 : matchHTTP2 b ≠ .matched := by
        refine matchHTTP2_not_matched_of_short ?_
        have : prefaceChars.length = 24 := by decide
        omega
      rw [selectProtocol, if_neg (by rw [hh1]; decide), if_neg hh2,
        if_pos (Or.inl hh1)]
  · intro b h1 h2
    rw [selectProtocol, h1, h2]
    exact ⟨by decide, by decide⟩

theorem protocol_auto_select_witness :
    selectProtocol prefaceChars = .prot .http2 ∧
    selectProtocol ['G', 'E', 'T'] = .prot .http1 ∧
    selectProtocol ['P', 'O', 'S'] = .eagain ∧
    selectProtocol ['h', 'e', 'l', 'l', 'o', 'w', 'o', 'r', 'l', 'd'] = .efailed := by
  refine ⟨?_, ?_, ?_, ?_⟩
  · have h := protocol_auto_select_spec.1 []
    rw [List.append_nil] at h
    exact h
  · have h := protocol_auto_select_spec.2.1 ['G', 'E', 'T'] (by decide) []
    rw [List.append_nil] at h
    exact h
  · exact protocol_auto_select_spec.2.2.1 ['P', 'O', 'S']
      (Or.inr ⟨['P', 'O', 'S', 'T'], by decide, by decide, by decide⟩)
  · exact (protocol_auto_select_spec.2.2.2 _ (by decide) (by decide)).1

end AutoSelect

/-! ### Xprotocol stream connection (stream table and stream ids) -/

namespace XStream

/-- StreamDirection from the xprotocol stream package: 1 server, 0
client. -/
inductive StreamDirection where
  | serverStream
  | clientStream
deriving DecidableEq, Repr

/-- The Go map assignment m.smap[streamID] = s of streamMap.Set:
replace the entry if the key exists, insert it otherwise. -/
def streamMapSet (m : List (String × StreamDirection)) (id : String)
    (dir : StreamDirection) : List (String × StreamDirection) :=
  if m.any (fun e => e.1 = id) then
    m.map (fun e => if e.1 = id then (id, dir) else e)
  else m ++ [(id, dir)]

/-- streamMap.Has. -/
def streamMapHas (m : List (String × StreamDirection)) (id : String) : Bool :=
  m.any (fun e => e.1 = id)

/-- streamMap.Remove (delete from the Go map). -/
def streamMapRemove (m : List (String × StreamDirection)) (id : String) :
    List (String × StreamDirection) :=
  m.filter (fun e => ¬ e.1 = id)

/-- The per connection state of streamConnection that the stream table
claims depend on: the atomic stream id counter (uint64) and the active
stream table. -/
structure ConnState where
  streamIDXprotocolCount : Nat
  activeStream : List (String × StreamDirection)
deriving DecidableEq, Repr

/-- streamConnection.NewStream: the counter is advanced atomically
(uint64 wrap made explicit), the decimal rendering becomes the stream
id, and a client stream is inserted under that id. -/
def NewStream (s : ConnState) : String × ConnState :=
  let n := (s.streamIDXprotocolCount + 1) % 2 ^ 64
  let id := Dubbo.natToDec n
  (id, ⟨n, streamMapSet s.activeStream id .clientStream⟩)

/-- streamConnection.onNewStreamDetected: an already known id returns
at once, a fresh id is inserted as a server stream. -/
def onNewStreamDetected (s : ConnState) (id : String) : ConnState :=
  if streamMapHas s.activeStream id then s
  else ⟨s.streamIDXprotocolCount, streamMapSet s.activeStream id .serverStream⟩

/-- Stream removal (client streams on response receipt in OnReceive,
server streams in endStream). -/
def removeStream (s : ConnState) (id : String) : ConnState :=
  ⟨s.streamIDXprotocolCount, streamMapRemove s.activeStream id⟩

/-- The states a stream connection can reach: fresh from
newStreamConnection, then any interleaving of NewStream,
onNewStreamDetected and removals. -/
inductive Reachable : ConnState → Prop where
  | init : Reachable ⟨0, []⟩
  | newStream {s : ConnState} : Reachable s → Reachable (NewStream s).2
  | detected {s : ConnState} (id : String) : Reachable s →
      Reachable (onNewStreamDetected s id)
  | removed {s : ConnState} (id : String) : Reachable s →
      Reachable (removeStream s id)

theorem map_fst_replace (m : List (String × StreamDirection)) (id : String)
    (dir : StreamDirection) :
    (m.map (fun e => if e.1 = id then (id, dir) else e)).map Prod.fst =
      m.map Prod.fst := by
  induction m with
  | nil => rfl
  | cons e m ih =>
    simp only [List.map_cons, List.cons.injEq]
    refine ⟨?_, ih⟩
    by_cases he : e.1 = id
    · rw [if_pos he]
      exact he.symm
    · rw [if_neg he]

theorem keys_streamMapSet (m : List (String × StreamDirection)) (id : String)
    (dir : StreamDirection) :
    (streamMapSet m id dir).map Prod.fst =
      if m.any (fun e => e.1 = id) then m.map Prod.fst
      else m.map Prod.fst ++ [id] := by
  rw [streamMapSet]
  by_cases h : m.any (fun e => e.1 = id)
  · rw [if_pos h, if_pos h]
    exact map_fst_replace m id dir
  · rw [if_neg h, if_neg h]
    simp

theorem nodup_streamMapSet {m : List (String × StreamDirection)}
    (hm : (m.map Prod.fst).Nodup) (id : String) (dir : StreamDirection) :
    ((streamMapSet m id dir).map Prod.fst).Nodup := by
  rw [keys_streamMapSet]
  by_cases h : m.any (fun e => e.1 = id)
  · rw [if_pos h]
    exact hm
  · rw [if_neg h]
    rw [List.nodup_append]
    refine ⟨hm, List.nodup_singleton id, ?_⟩
    intro x hx hx1
    have hxid : x = id := by simpa using hx1
    subst hxid
    obtain ⟨e, he, he1⟩ := List.mem_map.mp hx
    have := List.any_eq_false.mp (Bool.not_eq_true _ ▸ h) e he
    simp only [decide_eq_true_eq] at this
    exact this he1

/-- C4: on every reachable connection state the stream ids in the
active stream table are pairwise distinct; NewStream advances the per
connection counter (monotonically below the uint64 wrap), and a
server side frame whose stream id is already in the table leaves the
table untouched instead of creating a second stream. -/
theorem stream_table_unique :
    (∀ s : ConnState, Reachable s → (s.activeStream.map Prod.fst).Nodup) ∧
    (∀ s : ConnState,
      (NewStream s).2.streamIDXprotocolCount =
        (s.streamIDXprotocolCount + 1) % 2 ^ 64 ∧
      (s.streamIDXprotocolCount + 1 < 2 ^ 64 →
        s.streamIDXprotocolCount < (NewStream s).2.streamIDXprotocolCount)) ∧
    (∀ (s : ConnState) (id : String),
      streamMapHas s.activeStream id = true → onNewStreamDetected s id = s) := by
  refine ⟨?_, ?_, ?_⟩
  · have hdet : ∀ (s : ConnState) (id : String),
        (s.activeStream.map Prod.fst).Nodup →
        ((onNewStreamDetected s id).activeStream.map Prod.fst).Nodup := by
      intro s id ih
      rw [onNewStreamDetected]
      by_cases h : streamMapHas s.activeStream id
      · rwa [if_pos h]
      · rw [if_neg h]
        exact nodup_streamMapSet ih _ _
    have hrem : ∀ (s : ConnState) (id : String),
        (s.activeStream.map Prod.fst).Nodup →
        ((removeStream s id).activeStream.map Prod.fst).Nodup := by
      intro s id ih
      refine List.Nodup.sublist ?_ ih
      exact List.Sublist.map Prod.fst (List.filter_sublist _)
    intro s hs
    induction hs with
    | init => exact List.nodup_nil
    | newStream hs ih => exact nodup_streamMapSet ih _ _
    | detected id hs ih => exact hdet _ id ih
    | removed id hs ih => exact hrem _ id ih
  · intro s
    refine ⟨rfl, fun h => ?_⟩
    show s.streamIDXprotocolCount < (s.streamIDXprotocolCount + 1) % 2 ^ 64
    rw [Nat.mod_eq_of_lt h]
    omega
  · intro s id h
    rw [onNewStreamDetected, if_pos h]

theorem stream_table_unique_witness :
    ((⟨0, []⟩ : ConnState).activeStream.map Prod.fst).Nodup ∧
    (0 : Nat) < (NewStream ⟨0, []⟩).2.streamIDXprotocolCount ∧
    onNewStreamDetected ⟨5, [("9", .serverStream)]⟩ "9" =
      ⟨5, [("9", .serverStream)]⟩ :=
  ⟨stream_table_unique.1 ⟨0, []⟩ Reachable.init,
   (stream_table_unique.2.1 ⟨0, []⟩).2 (by decide),
   stream_table_unique.2.2 ⟨5, [("9", .serverStream)]⟩ "9" (by decide)⟩

end XStream

/-! ### Sofa RPC keep alive (pkg/stream/sofarpc/keepalive.go) -/

namespace KeepAlive

/-- The state of a sofaRPCKeepAlive that HandleTimeout / HandleSuccess
act on: the map of outstanding heartbeat request ids (each with a
running timer), the uint32 timeout counter, the configured Threshold,
whether Codec.Close was called and whether the stop channel is closed. -/
structure KAState where
  requests : List Nat
  timeoutCount : Nat
  threshold : Nat
  connClosed : Bool
  stopped : Bool
deriving DecidableEq, Repr

/-- sofaRPCKeepAlive.HandleTimeout: a no op once stopped or when the id
is not outstanding; otherwise the id is deleted, the counter is
incremented (uint32 wrap explicit) and the connection is closed when the
counter reaches the threshold.  The boolean reports whether the handler
acted (the KeepAliveTimeout callback would run). -/
def HandleTimeout (s : KAState) (id : Nat) : KAState × Bool :=
  if s.stopped then (s, false)
  else if s.requests.contains id then
    ({ s with
        requests := s.requests.filter (fun x => x != id),
        timeoutCount := (s.timeoutCount + 1) % 2 ^ 32,
        connClosed :=
          s.connClosed || decide (s.threshold ≤ (s.timeoutCount + 1) % 2 ^ 32) },
      true)
  else (s, false)

/-- sofaRPCKeepAlive.HandleSuccess: a no op once stopped or when the id
is not outstanding; otherwise the id is deleted, its timer stopped (the
returned option names the cancelled timer) and the counter reset. -/
def HandleSuccess (s : KAState) (id : Nat) : KAState × Option Nat :=
  if s.stopped then (s, none)
  else if s.requests.contains id then
    ({ s with
        requests := s.requests.filter (fun x => x != id),
        timeoutCount := 0 },
      some id)
  else (s, none)

theorem not_mem_filter_ne (l : List Nat) (id : Nat) :
    id ∉ l.filter (fun x => x != id) := by
  intro h
  have := List.of_mem_filter h
  simp at this

/-- C5: an outstanding heartbeat id is handled at most once — after a
timeout or a success handled it, the id is gone and both handlers are
no ops for it; a handled timeout increments the failure counter and
closes the connection once the counter reaches the threshold N; a
handled success cancels the timer of that id and resets the counter to
zero. -/
theorem keepalive_spec :
    (∀ (s : KAState) (id : Nat), (HandleTimeout s id).2 = true →
      id ∉ (HandleTimeout s id).1.requests ∧
      (HandleTimeout (HandleTimeout s id).1 id).2 = false ∧
      (HandleSuccess (HandleTimeout s id).1 id).2 = none) ∧
    (∀ (s : KAState) (id : Nat), (HandleSuccess s id).2 ≠ none →
      id ∉ (HandleSuccess s id).1.requests ∧
      (HandleTimeout (HandleSuccess s id).1 id).2 = false ∧
      (HandleSuccess (HandleSuccess s id).1 id).2 = none) ∧
    (∀ (s : KAState) (id : Nat), s.stopped = false → id ∈ s.requests →
      (HandleTimeout s id).1.timeoutCount = (s.timeoutCount + 1) % 2 ^ 32 ∧
      (s.threshold ≤ (s.timeoutCount + 1) % 2 ^ 32 →
        (HandleTimeout s id).1.connClosed = true)) ∧
    (∀ (s : KAState) (id : Nat), s.stopped = false → id ∈ s.requests →
      (HandleSuccess s id).2 = some id ∧
      (HandleSuccess s id).1.timeoutCount = 0) := by
  refine ⟨?_, ?_, ?_, ?_⟩
  · intro s id hacted
    rw [HandleTimeout] at hacted ⊢
    by_cases hstop : s.stopped
    · rw [if_pos hstop] at hacted
      exact absurd hacted Bool.false_ne_true
    · rw [if_neg hstop] at hacted ⊢
      by_cases hmem : s.requests.contains id
      · rw [if_pos hmem] at hacted ⊢
        refine ⟨not_mem_filter_ne _ _, ?_, ?_⟩
        · rw [HandleTimeout, if_neg (by simpa using hstop), if_neg]
          simpa using not_mem_filter_ne s.requests id
        · rw [HandleSuccess, if_neg (by simpa using hstop), if_neg]
          simpa using not_mem_filter_ne s.requests id
      · rw [if_neg hmem] at hacted
        exact absurd hacted Bool.false_ne_true
  · intro s id hacted
    rw [HandleSuccess] at hacted ⊢
    by_cases hstop : s.stopped
    · rw [if_pos hstop] at hacted
      exact absurd rfl hacted
    · rw [if_neg hstop] at hacted ⊢
      by_cases hmem : s.requests.contains id
      · rw [if_pos hmem] at hacted ⊢
        refine ⟨not_mem_filter_ne _ _, ?_, ?_⟩
        · rw [HandleTimeout, if_neg (by simpa using hstop), if_neg]
          simpa using not_mem_filter_ne s.requests id
        · rw [HandleSuccess, if_neg (by simpa using hstop), if_neg]
          simpa using not_mem_filter_ne s.requests id
      · rw [if_neg hmem] at hacted
        exact absurd rfl hacted
  · intro s id hstop hmem
    rw [HandleTimeout, if_neg (by simp [hstop]),
      if_pos (by simpa using hmem)]
    refine ⟨rfl, fun hth => ?_⟩
    simp only [Bool.or_eq_true, decide_eq_true_eq]
    exact Or.inr hth
  · intro s id hstop hmem
    rw [HandleSuccess, if_neg (by simp [hstop]),
      if_pos (by simpa using hmem)]
    exact ⟨rfl, rfl⟩

theorem keepalive_spec_witness :
    (HandleTimeout ⟨[7], 0, 1, false, false⟩ 7).2 = true ∧
    7 ∉ (HandleTimeout ⟨[7], 0, 1, false, false⟩ 7).1.requests ∧
    (HandleTimeout ⟨[7], 0, 1, false, false⟩ 7).1.connClosed = true ∧
    (HandleSuccess ⟨[7], 3, 5, false, false⟩ 7).2 = some 7 ∧
    (HandleSuccess ⟨[7], 3, 5, false, false⟩ 7).1.timeoutCount = 0 :=
  ⟨by decide,
   (keepalive_spec.1 ⟨[7], 0, 1, false, false⟩ 7 (by decide)).1,
   (keepalive_spec.2.2.1 ⟨[7], 0, 1, false, false⟩ 7 (by decide)
     (by decide)).2 (by decide),
   (keepalive_spec.2.2.2 ⟨[7], 3, 5, false, false⟩ 7 (by decide) (by decide)).1,
   (keepalive_spec.2.2.2 ⟨[7], 3, 5, false, false⟩ 7 (by decide) (by decide)).2⟩

end KeepAlive

/-! ### Xprotocol health check stream filter -/

namespace HealthCheck

/-- Header lookup (headers.Get of a Go string map: at most one entry
per key). -/
def hget : List (String × String) → String → Option String
  | [], _ => none
  | e :: t, k => if e.1 = k then some e.2 else hget t k

/-- Header update (headers.Set of a Go string map: replace the entry or
insert it). -/
def hset : List (String × String) → String → String → List (String × String)
  | [], k, v => [(k, v)]
  | e :: t, k, v => if e.1 = k then (k, v) :: t else e :: hset t k v

/-- X_PROTOCOL_HEARTBEAT_HIJACK from the xprotocol stream package
(note: no dash between x and protocol in the source constant). -/
def X_PROTOCOL_HEARTBEAT_HIJACK : String := "xprotocol-heartbeat-hijack"

/-- Modelled from the spec: the value of types.HeaderXprotocolHeartbeat
is not under src; spec scenario S4 sends the heartbeat marker as the
header x-protocol-heartbeat. -/
def HeaderXprotocolHeartbeat : String := "x-protocol-heartbeat"

/-- api.StreamFilterStatus. -/
inductive FilterStatus where
  | streamFilterContinue
  | streamFilterStop
deriving DecidableEq, Repr

/-- The healthCheckFilter fields the claim depends on. -/
structure HCFilter where
  passThrough : Bool
  protocol : String
  healthCheckReq : Bool
deriving DecidableEq, Repr

/-- Everything observable about one OnReceive call: the returned
status, the filter state afterwards, the (possibly mutated) headers, the
immediate response appended via handler.AppendHeaders (headers plus the
endStream flag), and whether RequestInfo().SetHealthCheck(true) ran. -/
structure OnReceiveResult where
  status : FilterStatus
  filter : HCFilter
  headers : List (String × String)
  appended : Option (List (String × String) × Bool)
  setHealthCheck : Bool
deriving DecidableEq, Repr

/-- healthCheckFilter.handleIntercept: set the hijack header to "true"
and append the headers as an immediate response with endStream =
true. -/
def handleIntercept (headers : List (String × String)) :
    List (String × String) × (List (String × String) × Bool) :=
  let h2 := hset headers X_PROTOCOL_HEARTBEAT_HIJACK "true"
  (h2, (h2, true))

/-- healthCheckFilter.OnReceive: when the heartbeat marker header is
present the request properties are recorded and the request info marked
as health check; with passThrough disabled the request is intercepted
and Stop returned, otherwise Continue. -/
def OnReceive (f : HCFilter) (headers : List (String × String)) :
    OnReceiveResult :=
  match hget headers HeaderXprotocolHeartbeat with
  | some protocol =>
    if f.passThrough = false then
      let r := handleIntercept headers
      { status := .streamFilterStop,
        filter := { f with protocol := protocol, healthCheckReq := true },
        headers := r.1, appended := some r.2, setHealthCheck := true }
    else
      { status := .streamFilterContinue,
        filter := { f with protocol := protocol, healthCheckReq := true },
        headers := headers, appended := none, setHealthCheck := true }
  | none =>
    { status := .streamFilterContinue, filter := f, headers := headers,
      appended := none, setHealthCheck := false }

theorem hget_hset_self (h : List (String × String)) (k v : String) :
    hget (hset h k v) k = some v := by
  induction h with
  | nil => simp [hset, hget]
  | cons e t ih =>
    rw [hset]
    by_cases he : e.1 = k
    · rw [if_pos he, hget, if_pos rfl]
    · rw [if_neg he, hget, if_neg he]
      exact ih

/-- C6 (amended): a request carrying the heartbeat marker is
intercepted by the filter when passThrough is off: handleIntercept sets
the header xprotocol-heartbeat-hijack (note the source constant has no
dash after x) to "true", appends the headers as an immediate response
with endStream, and Stop is returned; requests without the marker, or
any request with passThrough on, get Continue and no response. -/
theorem healthcheck_filter_spec :
    (∀ (f : HCFilter) (h : List (String × String)),
      (hget h HeaderXprotocolHeartbeat).isSome = true → f.passThrough = false →
      (OnReceive f h).status = .streamFilterStop ∧
      hget (OnReceive f h).headers X_PROTOCOL_HEARTBEAT_HIJACK = some "true" ∧
      (OnReceive f h).appended = some ((OnReceive f h).headers, true) ∧
      (OnReceive f h).setHealthCheck = true) ∧
    (∀ (f : HCFilter) (h : List (String × String)),
      hget h HeaderXprotocolHeartbeat = none →
      (OnReceive f h).status = .streamFilterContinue ∧
      (OnReceive f h).appended = none) ∧
    (∀ (f : HCFilter) (h : List (String × String)), f.passThrough = true →
      (OnReceive f h).status = .streamFilterContinue ∧
      (OnReceive f h).appended = none) := by
  refine ⟨?_, ?_, ?_⟩
  · intro f h hmark hpass
    cases hm : hget h HeaderXprotocolHeartbeat with
    | none => rw [hm] at hmark; exact absurd hmark (by decide)
    | some p =>
      rw [OnReceive, hm]
      dsimp only
      rw [if_pos hpass]
      exact ⟨rfl, hget_hset_self h _ _, rfl, rfl⟩
  · intro f h hm
    rw [OnReceive, hm]
    exact ⟨rfl, rfl⟩
  · intro f h hpass
    cases hm : hget h HeaderXprotocolHeartbeat with
    | none =>
      rw [OnReceive, hm]
      exact ⟨rfl, rfl⟩
    | some p =>
      rw [OnReceive, hm]
      dsimp only
      rw [if_neg (by simp [hpass])]
      exact ⟨rfl, rfl⟩

theorem healthcheck_filter_witness :
    (OnReceive ⟨false, "", false⟩ [("x-protocol-heartbeat", "dubbo")]).status =
      .streamFilterStop ∧
    hget (OnReceive ⟨false, "", false⟩
      [("x-protocol-heartbeat", "dubbo")]).headers
      X_PROTOCOL_HEARTBEAT_HIJACK = some "true" ∧
    (OnReceive ⟨false, "", false⟩ [("a", "b")]).status =
      .streamFilterContinue ∧
    (OnReceive ⟨true, "", false⟩ [("x-protocol-heartbeat", "dubbo")]).status =
      .streamFilterContinue :=
  ⟨(healthcheck_filter_spec.1 ⟨false, "", false⟩
      [("x-protocol-heartbeat", "dubbo")] (by decide) rfl).1,
   (healthcheck_filter_spec.1 ⟨false, "", false⟩
      [("x-protocol-heartbeat", "dubbo")] (by decide) rfl).2.1,
   (healthcheck_filter_spec.2.1 ⟨false, "", false⟩ [("a", "b")] (by decide)).1,
   (healthcheck_filter_spec.2.2 ⟨true, "", false⟩
      [("x-protocol-heartbeat", "dubbo")] rfl).1⟩

/-- C6 (counterexample): the hijack header the filter actually sets is
"xprotocol-heartbeat-hijack"; the header "x-protocol-heartbeat-hijack"
named by the claim is never written. -/
theorem healthcheck_filter_cex :
    (OnReceive ⟨false, "", false⟩ [("x-protocol-heartbeat", "dubbo")]).status =
      .streamFilterStop ∧
    hget (OnReceive ⟨false, "", false⟩
      [("x-protocol-heartbeat", "dubbo")]).headers
      "x-protocol-heartbeat-hijack" = none ∧
    hget (OnReceive ⟨false, "", false⟩
      [("x-protocol-heartbeat", "dubbo")]).headers
      "xprotocol-heartbeat-hijack" = some "true" := by
  refine ⟨by decide, by decide, by decide⟩

end HealthCheck

/-! ### Load balancers (pkg/upstream/cluster/loadbalancer.go) -/

namespace LB

/-- An upstream host as the load balancers see it: identity (address),
configured weight, health bit and the active request counter
HostStats().UpstreamRequestActive.Count(). -/
structure Host where
  addr : String
  weight : Nat
  healthy : Bool
  active : Nat
deriving DecidableEq, Repr

instance : Inhabited Host := ⟨⟨"", 0, false, 0⟩⟩

/-- math/rand is modelled as a stream of pre drawn numbers; Intn n
consumes the head reduced mod n (callers only invoke it with n > 0). -/
def randIntn (rng : List Nat) (n : Nat) : Nat × List Nat :=
  ((rng.headD 0) % n, rng.tail)

/-- The retry loop of roundRobinLoadBalancer.ChooseHost: each try
atomically advances rrIndex (uint32 wrap explicit), indexes the host
list mod total and returns the host if healthy; after total tries the
result is nil. -/
def rrLoop (hosts : List Host) : Nat → Nat → Option Host × Nat
  | rrIndex, 0 => (none, rrIndex)
  | rrIndex, Nat.succ k =>
    let idx := (rrIndex + 1) % 2 ^ 32
    let host := hosts.getD (idx % hosts.length) default
    if host.healthy then (some host, idx) else rrLoop hosts idx k

/-- roundRobinLoadBalancer.ChooseHost (also returns the advanced
rrIndex). -/
def roundRobinChooseHost (hosts : List Host) (rrIndex : Nat) :
    Option Host × Nat :=
  if hosts.length = 0 then (none, rrIndex)
  else rrLoop hosts rrIndex hosts.length

/-- The choice loop of leastActiveRequestLoadBalancer.unweightChooseHost:
choice times, draw a random index and keep the host with the smaller
active request count (strictly smaller replaces, so the first sampled
minimum wins). -/
def uwLoop (hosts : List Host) : Nat → Option Host → List Nat →
    Option Host × List Nat
  | 0, cand, rng => (cand, rng)
  | Nat.succ k, cand, rng =>
    let d := randIntn rng hosts.length
    let tempHost := hosts.getD d.1 default
    match cand with
    | none => uwLoop hosts k (some tempHost) d.2
    | some c =>
      uwLoop hosts k (some (if c.active > tempHost.active then tempHost else c)) d.2

/-- leastActiveRequestLoadBalancer.unweightChooseHost. -/
def unweightChooseHost (choice : Nat) (hosts : List Host) (rng : List Nat) :
    Option Host × List Nat :=
  uwLoop hosts choice none rng

/-- The random indices the choice loop draws (for inspecting the
sampling behaviour). -/
def sampledIndices (hosts : List Host) : Nat → List Nat → List Nat
  | 0, _ => []
  | Nat.succ k, rng =>
    let d := randIntn rng hosts.length
    d.1 :: sampledIndices hosts k d.2

/-- The outcome of the EdfLoadBalancer.ChooseHost candidate loop. -/
inductive EdfOutcome where
  | found (h : Host)
  | exhausted (rng : List Nat)
  | pickFailed
deriving DecidableEq, Repr

/-- The candidate loop of EdfLoadBalancer.ChooseHost: up to total
attempts, take a candidate from the configured chooser (the EDF
scheduler for unequal weights, the unweight chooser otherwise) and
return it as soon as it is healthy.  A chooser yielding no host would
make the Go code dereference nil (pickFailed; unreachable for the least
active chooser with choice >= 1). -/
def edfLoop (pick : List Nat → Option Host × List Nat) :
    Nat → List Nat → EdfOutcome
  | 0, rng => .exhausted rng
  | Nat.succ k, rng =>
    let r := pick rng
    match r.1 with
    | none => .pickFailed
    | some c => if c.healthy then .found c else edfLoop pick k r.2

/-- EdfLoadBalancer.ChooseHost: nil on an empty host set, the sole host
of a singleton set, otherwise up to total candidate attempts and then a
random host from the whole set when every attempt was unhealthy. -/
def EdfChooseHost (hosts : List Host)
    (pick : List Nat → Option Host × List Nat) (rng : List Nat) : Option Host :=
  if hosts.length = 0 then none
  else if hosts.length = 1 then some (hosts.getD 0 default)
  else
    match edfLoop pick hosts.length rng with
    | .found c => some c
    | .exhausted rng2 => some (hosts.getD (randIntn rng2 hosts.length).1 default)
    | .pickFailed => none

/-- default_choice from loadbalancer.go. -/
def default_choice : Nat := 2

/-- The choice count selection of newleastActiveRequestLoadBalancer:
the configured LeastRequestLbConfig.ChoiceCount if any, else the
default of 2. -/
def leastActiveChoiceCount : Option Nat → Nat
  | some c => c
  | none => default_choice

/-- leastActiveRequestLoadBalancer.ChooseHost (the EDF wrapper with the
unweight chooser; the EDF scheduler branch applies only to unequal
weights and its NextAndPush chooser is abstracted by the pick
parameter of EdfChooseHost). -/
def leastActiveChooseHost (choice : Nat) (hosts : List Host)
    (rng : List Nat) : Option Host :=
  EdfChooseHost hosts (unweightChooseHost choice hosts) rng

/-- The running minimum the choice loop maintains. -/
def minActive (c t : Host) : Host :=
  if c.active > t.active then t else c

theorem uwLoop_some (hosts : List Host) : ∀ (k : Nat) (rng : List Nat) (c : Host),
    (uwLoop hosts k (some c) rng).1 =
      some (((sampledIndices hosts k rng).map
        (fun i => hosts.getD i default)).foldl minActive c) := by
  intro k
  induction k with
  | zero =>
    intro rng c
    rfl
  | succ k ih =>
    intro rng c
    rw [uwLoop, sampledIndices]
    simp only [List.map_cons, List.foldl_cons]
    exact ih _ _

theorem unweight_eq_foldMin (hosts : List Host) (k : Nat) (rng : List Nat) :
    (unweightChooseHost (k + 1) hosts rng).1 =
      some ((((sampledIndices hosts k (randIntn rng hosts.length).2).map
        (fun i => hosts.getD i default)).foldl minActive
          (hosts.getD (randIntn rng hosts.length).1 default))) := by
  rw [unweightChooseHost, uwLoop]
  exact uwLoop_some hosts k _ _

theorem foldMin_spec (l : List Host) : ∀ (c : Host),
    (l.foldl minActive c = c ∨ l.foldl minActive c ∈ l) ∧
    (l.foldl minActive c).active ≤ c.active ∧
    ∀ t ∈ l, (l.foldl minActive c).active ≤ t.active := by
  induction l with
  | nil =>
    intro c
    exact ⟨Or.inl rfl, Nat.le_refl _, fun t ht => absurd ht (List.not_mem_nil t)⟩
  | cons t0 l ih =>
    intro c
    have hs := ih (minActive c t0)
    have hle : (minActive c t0).active ≤ c.active ∧
        (minActive c t0).active ≤ t0.active := by
      rw [minActive]
      by_cases h : c.active > t0.active
      · rw [if_pos h]
        omega


      · rw [if_neg h]
        omega
    simp only [List.foldl_cons]
    refine ⟨?_, ?_, ?_⟩
    · rcases hs.1 with h | h
      · rw [h, minActive]
        by_cases hc : c.active > t0.active
        · rw [if_pos hc]
          exact Or.inr (List.mem_cons_self _ _)
        · rw [if_neg hc]
          exact Or.inl rfl
      · exact Or.inr (List.mem_cons_of_mem _ h)
    · exact Nat.le_trans hs.2.1 hle.1
    · intro t ht
      rcases List.mem_cons.mp ht with h | h
      · subst h
        exact Nat.le_trans hs.2.1 hle.2
      · exact hs.2.2 t h

theorem unweight_isSome (hosts : List Host) (choice : Nat) (rng : List Nat)
    (hc : 1 ≤ choice) : ((unweightChooseHost choice hosts rng).1).isSome = true := by
  cases choice with
  | zero => omega
  | succ k =>
    rw [unweight_eq_foldMin]
    rfl

theorem edfLoop_not_failed (pick : List Nat → Option Host × List Nat)
    (hpick : ∀ rng, ((pick rng).1).isSome = true) :
    ∀ (k : Nat) (rng : List Nat), edfLoop pick k rng ≠ .pickFailed := by
  intro k
  induction k with
  | zero =>
    intro rng
    rw [edfLoop]
    simp
  | succ k ih =>
    intro rng
    rw [edfLoop]
    cases hr : (pick rng).1 with
    | none =>
      have := hpick rng
      rw [hr] at this
      exact absurd this (by decide)
    | some c =>
      by_cases hh : c.healthy
      · simp only [hh, if_true]
        simp
      · simp only [hh, Bool.false_eq_true, if_false]
        exact ih _

theorem getD_mem_of_lt (l : List Host) (n : Nat) (h : n < l.length) :
    l.getD n default ∈ l := by
  rw [List.getD_eq_getElem l default h]
  exact List.getElem_mem h

theorem sampled_lt_length (hosts : List Host) (hlen : 0 < hosts.length) :
    ∀ (k : Nat) (rng : List Nat), ∀ i ∈ sampledIndices hosts k rng,
      i < hosts.length := by
  intro k
  induction k with
  | zero =>
    intro rng i hi
    exact absurd hi (List.not_mem_nil i)
  | succ k ih =>
    intro rng i hi
    rw [sampledIndices] at hi
    rcases List.mem_cons.mp hi with h | h
    · subst h
      exact Nat.mod_lt _ hlen
    · exact ih _ i h

theorem unweight_mem (hosts : List Host) (k : Nat) (rng : List Nat)
    (hlen : 0 < hosts.length) (c : Host)
    (h : (unweightChooseHost (k + 1) hosts rng).1 = some c) : c ∈ hosts := by
  rw [unweight_eq_foldMin] at h
  have hc := Option.some.inj h
  have hf := foldMin_spec (((sampledIndices hosts k
    (randIntn rng hosts.length).2).map (fun i => hosts.getD i default)))
    (hosts.getD (randIntn rng hosts.length).1 default)
  rcases hf.1 with he | he
  · rw [← hc, he]
    exact getD_mem_of_lt hosts _ (Nat.mod_lt _ hlen)
  · rw [← hc]
    obtain ⟨i, hi, hieq⟩ := List.mem_map.mp he
    rw [← hieq]
    exact getD_mem_of_lt hosts i (sampled_lt_length hosts hlen k _ i hi)

theorem edfLoop_exhausted_of_unhealthy (hosts : List Host) (choice : Nat)
    (hlen : 0 < hosts.length) (hch : 1 ≤ choice)
    (hun : ∀ h ∈ hosts, h.healthy = false) :
    ∀ (k : Nat) (rng : List Nat), ∃ rng3,
      edfLoop (unweightChooseHost choice hosts) k rng = .exhausted rng3 := by
  intro k
  induction k with
  | zero =>
    intro rng
    exact ⟨rng, rfl⟩
  | succ k ih =>
    intro rng
    rw [edfLoop]
    cases choice with
    | zero => omega
    | succ k3 =>
      cases hr : ((unweightChooseHost (k3 + 1) hosts rng)).1 with
      | none =>
        rw [unweight_eq_foldMin] at hr
        exact absurd hr (by simp)
      | some c =>
        have hcu : c.healthy = false := hun c (unweight_mem hosts k3 rng hlen c hr)
        dsimp only
        simp only [hcu, Bool.false_eq_true, if_false]
        exact ih _

/-- C7 (amended): the choice count defaults to 2; each attempt samples
choice indices independently with replacement (not necessarily
distinct) into the host list and keeps the sampled host with the
smallest active request count (first sampled minimum on ties); a
healthy candidate is returned by the EDF wrapper, and when every host
is unhealthy a host of the whole set picked by the random fallback is
returned. -/
theorem least_active_choose_spec :
    (leastActiveChoiceCount none = 2) ∧
    (∀ (hosts : List Host) (k : Nat) (rng : List Nat), ∃ r : Host,
      (unweightChooseHost (k + 1) hosts rng).1 = some r ∧
      r ∈ ((sampledIndices hosts (k + 1) rng).map
        (fun i => hosts.getD i default)) ∧
      (∀ t ∈ ((sampledIndices hosts (k + 1) rng).map
        (fun i => hosts.getD i default)), r.active ≤ t.active)) ∧
    (∀ (hosts : List Host) (k : Nat) (rng : List Nat), 0 < hosts.length →
      ∀ i ∈ sampledIndices hosts k rng, i < hosts.length) ∧
    (∀ (hosts : List Host) (choice : Nat) (rng : List Nat) (c : Host),
      2 ≤ hosts.length → (unweightChooseHost choice hosts rng).1 = some c →
      c.healthy = true → leastActiveChooseHost choice hosts rng = some c) ∧
    (∀ (hosts : List Host) (choice : Nat) (rng : List Nat),
      2 ≤ hosts.length → 1 ≤ choice → (∀ h ∈ hosts, h.healthy = false) →
      ∃ j, j < hosts.length ∧
        leastActiveChooseHost choice hosts rng = some (hosts.getD j default)) := by
  refine ⟨rfl, ?_, ?_, ?_, ?_⟩
  · intro hosts k rng
    rw [unweight_eq_foldMin]
    refine ⟨_, rfl, ?_, ?_⟩
    · rw [sampledIndices]
      simp only [List.map_cons]
      have hf := (foldMin_spec (((sampledIndices hosts k
        (randIntn rng hosts.length).2).map (fun i => hosts.getD i default)))
        (hosts.getD (randIntn rng hosts.length).1 default))
      rcases hf.1 with h | h
      · rw [h]
        exact List.mem_cons_self _ _
      · exact List.mem_cons_of_mem _ h
    · intro t ht
      rw [sampledIndices] at ht
      simp only [List.map_cons] at ht
      have hf := (foldMin_spec (((sampledIndices hosts k
        (randIntn rng hosts.length).2).map (fun i => hosts.getD i default)))
        (hosts.getD (randIntn rng hosts.length).1 default))
      rcases List.mem_cons.mp ht with h | h
      · subst h
        exact hf.2.1
      · exact hf.2.2 t h
  · intro hosts k rng hlen
    exact sampled_lt_length hosts hlen k rng
  · intro hosts choice rng c hlen hc hhealthy
    rw [leastActiveChooseHost, EdfChooseHost,
      if_neg (by omega), if_neg (by omega)]
    have hlen0 : hosts.length ≠ 0 := by omega
    cases hl : hosts.length with
    | zero => exact absurd hl hlen0
    | succ k2 =>
      rw [edfLoop, hc]
      simp only [hhealthy, if_true]
  · intro hosts choice rng hlen hchoice hunhealthy
    rw [leastActiveChooseHost, EdfChooseHost,
      if_neg (by omega), if_neg (by omega)]
    obtain ⟨rng3, hex⟩ := edfLoop_exhausted_of_unhealthy hosts choice
      (by omega) hchoice hunhealthy hosts.length rng
    rw [hex]
    exact ⟨(randIntn rng3 hosts.length).1, Nat.mod_lt _ (by omega), rfl⟩

theorem least_active_choose_witness :
    leastActiveChoiceCount none = 2 ∧
    leastActiveChooseHost 2 [⟨"a", 1, true, 2⟩, ⟨"b", 1, true, 0⟩] [0, 1] =
      some ⟨"b", 1, true, 0⟩ ∧
    (∃ j, j < (2 : Nat) ∧
      leastActiveChooseHost 2 [⟨"a", 1, false, 2⟩, ⟨"b", 1, false, 0⟩]
        [0, 1, 0, 1, 1] =
      some ([(⟨"a", 1, false, 2⟩ : Host), ⟨"b", 1, false, 0⟩].getD j default)) :=
  ⟨least_active_choose_spec.1,
   least_active_choose_spec.2.2.2.1 [⟨"a", 1, true, 2⟩, ⟨"b", 1, true, 0⟩] 2
     [0, 1] ⟨"b", 1, true, 0⟩ (by decide) (by decide) (by decide),
   least_active_choose_spec.2.2.2.2 [⟨"a", 1, false, 2⟩, ⟨"b", 1, false, 0⟩] 2
     [0, 1, 0, 1, 1] (by decide) (by decide) (by decide)⟩

/-- C7 (counterexample): with two hosts and the random draws 0, 0 the
two sampled indices coincide — the loop samples with replacement, not
k distinct indices — and the host with more active requests is returned
even though the other host has fewer. -/
theorem least_active_sampling_cex :
    sampledIndices [⟨"a", 1, true, 5⟩, ⟨"b", 1, true, 0⟩] 2 [0, 0] = [0, 0] ∧
    ¬ (sampledIndices [⟨"a", 1, true, 5⟩, ⟨"b", 1, true, 0⟩] 2 [0, 0]).Nodup ∧
    (unweightChooseHost 2 [⟨"a", 1, true, 5⟩, ⟨"b", 1, true, 0⟩] [0, 0]).1 =
      some ⟨"a", 1, true, 5⟩ := by
  refine ⟨by decide, by decide, by decide⟩

theorem rrLoop_none_of_unhealthy (hosts : List Host)
    (hun : ∀ h ∈ hosts, h.healthy = false) (hlen : 0 < hosts.length) :
    ∀ (k rrIndex : Nat), (rrLoop hosts rrIndex k).1 = none := by
  intro k
  induction k with
  | zero =>
    intro rrIndex
    rfl
  | succ k ih =>
    intro rrIndex
    rw [rrLoop]
    have hh := hun (hosts.getD (((rrIndex + 1) % 2 ^ 32) % hosts.length) default)
      (getD_mem_of_lt hosts _ (Nat.mod_lt _ hlen))
    simp only [hh, Bool.false_eq_true, if_false]
    exact ih _

/-- C10: the EDF based ChooseHost used by least active request never
returns nil on a non empty host set — a singleton set is returned
directly, a healthy candidate within the attempts, and a random host
even when every host is unhealthy — while round robin returns none once
its total tries all hit unhealthy hosts. -/
theorem edf_choose_never_none :
    (∀ (hosts : List Host) (choice : Nat) (rng : List Nat),
      hosts ≠ [] → 1 ≤ choice →
      (leastActiveChooseHost choice hosts rng).isSome = true) ∧
    (∀ (hosts : List Host) (choice : Nat) (rng : List Nat),
      hosts.length = 1 →
      leastActiveChooseHost choice hosts rng = some (hosts.getD 0 default)) ∧
    (∀ (hosts : List Host) (rrIndex : Nat),
      (∀ h ∈ hosts, h.healthy = false) →
      (roundRobinChooseHost hosts rrIndex).1 = none) := by
  refine ⟨?_, ?_, ?_⟩
  · intro hosts choice rng hne hchoice
    have hlen : 0 < hosts.length := List.length_pos.mpr hne
    rw [leastActiveChooseHost, EdfChooseHost, if_neg (by omega)]
    by_cases h1 : hosts.length = 1
    · rw [if_pos h1]
      rfl
    · rw [if_neg h1]
      cases hout : edfLoop (unweightChooseHost choice hosts) hosts.length rng with
      | found c => rfl
      | exhausted rng2 => rfl
      | pickFailed =>
        exact absurd hout (edfLoop_not_failed _
          (fun r => unweight_isSome hosts choice r hchoice) _ _)
  · intro hosts choice rng h1
    rw [leastActiveChooseHost, EdfChooseHost, if_neg (by omega), if_pos h1]
  · intro hosts rrIndex hun
    rw [roundRobinChooseHost]
    by_cases h0 : hosts.length = 0
    · rw [if_pos h0]
    · rw [if_neg h0]
      exact rrLoop_none_of_unhealthy hosts hun (by omega) _ _

theorem edf_choose_never_none_witness :
    (leastActiveChooseHost 2 [⟨"a", 1, false, 0⟩, ⟨"b", 1, false, 0⟩]
      [0, 1, 1, 0]).isSome = true ∧
    leastActiveChooseHost 7 [⟨"solo", 1, false, 0⟩] [] =
      some ([(⟨"solo", 1, false, 0⟩ : Host)].getD 0 default) ∧
    (roundRobinChooseHost [⟨"a", 1, false, 0⟩, ⟨"b", 1, false, 0⟩] 3).1 = none :=
  ⟨edf_choose_never_none.1 [⟨"a", 1, false, 0⟩, ⟨"b", 1, false, 0⟩] 2
     [0, 1, 1, 0] (by decide) (by decide),
   edf_choose_never_none.2.1 [⟨"solo", 1, false, 0⟩] 7 [] (by decide),
   edf_choose_never_none.2.2 [⟨"a", 1, false, 0⟩, ⟨"b", 1, false, 0⟩] 3
     (by decide)⟩

/-! #### Smooth weighted round robin -/

/-- The hostSmoothWeighted record of loadbalancer.go (int64 fields). -/
structure hostSmoothWeighted where
  weight : Int
  currentWeight : Int
  effectiveWeight : Int
deriving DecidableEq, Repr

instance : Inhabited hostSmoothWeighted := ⟨⟨0, 0, 0⟩⟩

/-- newSmoothWeightedRRLoadBalancer: every host starts with
effectiveWeight = weight and currentWeight = 0 (the Go zero value). -/
def initHostsWeighted (hosts : List Host) : List hostSmoothWeighted :=
  hosts.map (fun h => ⟨(h.weight : Int), 0, (h.weight : Int)⟩)

/-- The selection loop of smoothWeightedRRLoadBalancer.ChooseHost over
the hosts zipped with their weighted records, carrying the loop index,
the accumulated totalWeight and the selected (index, currentWeight)
pair: unhealthy hosts are skipped untouched; a healthy host gets
effectiveWeight added to currentWeight, contributes effectiveWeight to
the total, has effectiveWeight incremented while below weight and
replaces the selection when its updated currentWeight is strictly
greater. -/
def swrrLoop : List (Host × hostSmoothWeighted) → Nat → Int →
    Option (Nat × Int) → List hostSmoothWeighted × Int × Option (Nat × Int)
  | [], _, total, sel => ([], total, sel)
  | (h, w) :: rest, idx, total, sel =>
    if h.healthy = true then
      let cw := w.currentWeight + w.effectiveWeight
      let ew := if w.effectiveWeight < w.weight then w.effectiveWeight + 1
                else w.effectiveWeight
      let sel2 : Option (Nat × Int) :=
        match sel with
        | none => some (idx, cw)
        | some (si, scw) => if cw > scw then some (idx, cw) else some (si, scw)
      let r := swrrLoop rest (idx + 1) (total + w.effectiveWeight) sel2
      (⟨w.weight, cw, ew⟩ :: r.1, r.2.1, r.2.2)
    else
      let r := swrrLoop rest (idx + 1) total sel
      (w :: r.1, r.2.1, r.2.2)

/-- smoothWeightedRRLoadBalancer.ChooseHost: run the loop, then
subtract the accumulated total weight from the winner's currentWeight
and return the host at the winning index. -/
def smoothWeightedRRChooseHost (hosts : List Host)
    (hw : List hostSmoothWeighted) : Option Host × List hostSmoothWeighted :=
  let r := swrrLoop (hosts.zip hw) 0 0 none
  match r.2.2 with
  | none => (none, r.1)
  | some (si, _) =>
    (some (hosts.getD si default),
     r.1.set si ⟨(r.1.getD si default).weight,
       (r.1.getD si default).currentWeight - r.2.1,
       (r.1.getD si default).effectiveWeight⟩)

/-- One comparison of the selection: a later element replaces the
current best only when strictly greater (the first maximum wins). -/
def selStep (best : Option (Nat × Int)) (i : Nat) (x : Int) :
    Option (Nat × Int) :=
  match best with
  | none => some (i, x)
  | some (b, y) => if x > y then some (i, x) else some (b, y)

/-- The fold of selection comparisons over a list of values whose first
element carries index i0. -/
def selFold : List Int → Nat → Option (Nat × Int) → Option (Nat × Int)
  | [], _, best => best
  | x :: t, i, best => selFold t (i + 1) (selStep best i x)

/-- The winner of a full value list: the first index attaining the
maximum. -/
def winner (a : List Int) : Option (Nat × Int) :=
  selFold a 0 none

theorem selStep_ge (best : Option (Nat × Int)) (i : Nat) (x : Int) :
    ∃ p, selStep best i x = some p ∧ x ≤ p.2 ∧
      (∀ b y, best = some (b, y) → y ≤ p.2) ∧
      (selStep best i x = best ∨ selStep best i x = some (i, x)) := by
  match best with
  | none =>
    refine ⟨(i, x), rfl, le_refl x, ?_, Or.inr rfl⟩
    intro b y h
    cases h
  | some (b, y) =>
    rw [selStep]
    by_cases h : x > y
    · rw [if_pos h]
      refine ⟨(i, x), rfl, le_refl x, ?_, Or.inr rfl⟩
      intro b2 y2 h2
      cases Option.some.inj h2
      show y ≤ x
      omega
    · rw [if_neg h]
      refine ⟨(b, y), rfl, by omega, ?_, Or.inl rfl⟩
      intro b2 y2 h2
      cases Option.some.inj h2
      exact le_refl y

theorem selFold_spec : ∀ (vs : List Int) (i0 : Nat) (best : Option (Nat × Int)),
    (selFold vs i0 best = best ∨
      ∃ m y, selFold vs i0 best = some (m, y) ∧ i0 ≤ m ∧ m < i0 + vs.length ∧
        vs.getD (m - i0) 0 = y) ∧
    (∀ m y, selFold vs i0 best = some (m, y) →
      (∀ j, j < vs.length → vs.getD j 0 ≤ y) ∧
      (∀ b x, best = some (b, x) → x ≤ y)) ∧
    (vs ≠ [] → (selFold vs i0 best).isSome = true) := by
  intro vs
  induction vs with
  | nil =>
    intro i0 best
    refine ⟨Or.inl rfl, ?_, fun h => absurd rfl h⟩
    intro m y hsel
    refine ⟨fun j hj => absurd hj (by simp), ?_⟩
    intro b x hb
    have hbest : best = some (m, y) := hsel
    rw [hbest] at hb
    cases Option.some.inj hb
    exact le_refl y
  | cons v t ih =>
    intro i0 best
    rw [selFold]
    obtain ⟨p, hstep, hxle, hbestle, hsteps⟩ := selStep_ge best i0 v
    have iht := ih (i0 + 1) (selStep best i0 v)
    refine ⟨?_, ?_, ?_⟩
    · rcases iht.1 with he | ⟨m, y, hm, hm1, hm2, hm3⟩
      · rcases hsteps with h | h
        · exact Or.inl (by rw [he, h])
        · refine Or.inr ⟨i0, v, ?_, Nat.le_refl _, by simp, by simp⟩
          rw [he, h]
      · refine Or.inr ⟨m, y, hm, by omega, by simp; omega, ?_⟩
        have hsub : m - i0 = (m - (i0 + 1)) + 1 := by omega
        rw [hsub]
        simpa using hm3
    · intro m y hsel
      have hprop := (iht.2.1) m y hsel
      have hp2 : p.2 ≤ y := hprop.2 p.1 p.2 (by rw [hstep])
      constructor
      · intro j hj
        cases j with
        | zero =>
          simpa using le_trans hxle hp2
        | succ j2 =>
          have := hprop.1 j2 (by simp at hj; omega)
          simpa using this
      · intro b x hb
        exact le_trans (hbestle b x hb) hp2
    · intro _
      match t with
      | [] =>
        rw [selFold, hstep]
        rfl
      | t0 :: ts =>
        exact iht.2.2 (by simp)

/-- One pick of the smooth weighted round robin on a fully healthy
stable host set, on the currentWeight vector alone (effectiveWeight
stays equal to weight, see the simulation below): add the weights, pick
the first maximum, subtract the total weight from the winner. -/
def swrrStep (w cw : List Int) : Option (Nat × List Int) :=
  match winner (List.zipWith (· + ·) cw w) with
  | none => none
  | some (m, y) => some (m, (List.zipWith (· + ·) cw w).set m (y - w.sum))

/-- The currentWeight vector after N picks, starting from the all zero
initialization. -/
def swrrRun (w : List Int) : Nat → List Int
  | 0 => List.replicate w.length 0
  | N + 1 =>
    match swrrStep w (swrrRun w N) with
    | none => swrrRun w N
    | some r => r.2

/-- The index picked in step N+1. -/
def swrrPickAt (w : List Int) (N : Nat) : Option Nat :=
  (swrrStep w (swrrRun w N)).map Prod.fst

/-- How often index i is picked in the first N steps. -/
def swrrCount (w : List Int) (i : Nat) : Nat → Nat
  | 0 => 0
  | N + 1 => swrrCount w i N + (if swrrPickAt w N = some i then 1 else 0)

theorem winner_spec {a : List Int} {m : Nat} {y : Int}
    (h : winner a = some (m, y)) :
    m < a.length ∧ a.getD m 0 = y ∧ ∀ j, j < a.length → a.getD j 0 ≤ y := by
  have hs := selFold_spec a 0 none
  rcases hs.1 with he | ⟨m2, y2, hm, _, hm2, hm3⟩
  · rw [winner, he] at h
    cases h
  · rw [winner, hm] at h
    have hp := Option.some.inj h
    have he1 : m2 = m := congrArg Prod.fst hp
    have he2 : y2 = y := congrArg Prod.snd hp
    subst he1
    subst he2
    have hmax := (hs.2.1 m2 y2 hm).1
    refine ⟨by omega, by simpa using hm3, fun j hj => hmax j hj⟩

theorem winner_isSome (a : List Int) (h : a ≠ []) : (winner a).isSome = true :=
  (selFold_spec a 0 none).2.2 h

theorem swrrRun_length (w : List Int) : ∀ N, (swrrRun w N).length = w.length := by
  intro N
  induction N with
  | zero => simp [swrrRun]
  | succ N ih =>
    rw [swrrRun, swrrStep]
    cases hw : winner (List.zipWith (· + ·) (swrrRun w N) w) with
    | none => exact ih
    | some p =>
      match p with
      | (m, y) =>
        simp only [List.length_set, List.length_zipWith, ih]
        omega

theorem getD_set_self_int (l : List Int) (i : Nat) (x : Int) (h : i < l.length) :
    (l.set i x).getD i 0 = x := by
  simp [List.getD_eq_getElem?_getD, List.getElem?_set_self, h]

theorem getD_set_ne_int (l : List Int) (i j : Nat) (x : Int) (h : i ≠ j) :
    (l.set i x).getD j 0 = l.getD j 0 := by
  simp [List.getD_eq_getElem?_getD, List.getElem?_set_ne h]

theorem sum_range_getD (l : List Int) :
    ∑ j ∈ Finset.range l.length, l.getD j 0 = l.sum := by
  induction l with
  | nil => simp
  | cons x t ih =>
    rw [List.length_cons, Finset.sum_range_succ']
    simp only [List.getD_cons_succ, List.getD_cons_zero]
    rw [ih, List.sum_cons]
    ring

theorem getD_zipWith_add (cw w : List Int) (j : Nat) (hcw : j < cw.length)
    (hw : j < w.length) :
    (List.zipWith (· + ·) cw w).getD j 0 = cw.getD j 0 + w.getD j 0 := by
  rw [List.getD_eq_getElem _ _ (by rw [List.length_zipWith]; omega),
    List.getElem_zipWith, List.getD_eq_getElem _ _ hcw,
    List.getD_eq_getElem _ _ hw]

theorem sum_set_mem (a : List Int) (s : Finset Nat) (m : Nat) (v : Int)
    (hm : m ∈ s) (hlen : m < a.length) :
    ∑ j ∈ s, (a.set m v).getD j 0 = (∑ j ∈ s, a.getD j 0) - a.getD m 0 + v := by
  rw [← Finset.insert_erase hm, Finset.sum_insert (Finset.not_mem_erase m s),
    Finset.sum_insert (Finset.not_mem_erase m s),
    getD_set_self_int a m v hlen]
  have hc : ∑ j ∈ s.erase m, (a.set m v).getD j 0 =
      ∑ j ∈ s.erase m, a.getD j 0 := by
    refine Finset.sum_congr rfl fun j hj => ?_
    exact getD_set_ne_int a m j v (fun he => (Finset.ne_of_mem_erase hj) he.symm)
  rw [hc]
  ring

theorem sum_set_not_mem (a : List Int) (s : Finset Nat) (m : Nat) (v : Int)
    (hm : m ∉ s) :
    ∑ j ∈ s, (a.set m v).getD j 0 = ∑ j ∈ s, a.getD j 0 := by
  refine Finset.sum_congr rfl fun j hj => ?_
  exact getD_set_ne_int a m j v (fun he => hm (he ▸ hj))

theorem swrrRun_succ_none (w : List Int) (N : Nat)
    (h : swrrStep w (swrrRun w N) = none) : swrrRun w (N + 1) = swrrRun w N := by
  rw [swrrRun, h]

theorem swrrRun_succ_some (w : List Int) (N : Nat) (r : Nat × List Int)
    (h : swrrStep w (swrrRun w N) = some r) : swrrRun w (N + 1) = r.2 := by
  rw [swrrRun, h]

theorem swrrStep_none {w cw : List Int} (h : swrrStep w cw = none) :
    List.zipWith (· + ·) cw w = [] := by
  by_contra ha
  have hi := winner_isSome (List.zipWith (· + ·) cw w) ha
  rw [swrrStep] at h
  cases hwin : winner (List.zipWith (· + ·) cw w) with
  | none => rw [hwin] at hi; cases hi
  | some p =>
    match p with
    | (m, y) => rw [hwin] at h; cases h

theorem swrrStep_some {w cw : List Int} {m : Nat} {c' : List Int}
    (h : swrrStep w cw = some (m, c')) :
    m < (List.zipWith (· + ·) cw w).length ∧
    (∀ j, j < (List.zipWith (· + ·) cw w).length →
      (List.zipWith (· + ·) cw w).getD j 0 ≤
        (List.zipWith (· + ·) cw w).getD m 0) ∧
    c' = (List.zipWith (· + ·) cw w).set m
      ((List.zipWith (· + ·) cw w).getD m 0 - w.sum) := by
  rw [swrrStep] at h
  cases hwin : winner (List.zipWith (· + ·) cw w) with
  | none => rw [hwin] at h; cases h
  | some p =>
    match p with
    | (m2, y) =>
      rw [hwin] at h
      have hp := Option.some.inj h
      have he1 : m2 = m := congrArg Prod.fst hp
      have he2 : (List.zipWith (· + ·) cw w).set m2 (y - w.sum) = c' :=
        congrArg Prod.snd hp
      subst he1
      obtain ⟨hm1, hm2, hm3⟩ := winner_spec hwin
      subst hm2
      exact ⟨hm1, hm3, he2.symm⟩

theorem swrr_sum_zero (w : List Int) (N : Nat) :
    ∑ j ∈ Finset.range w.length, (swrrRun w N).getD j 0 = 0 := by
  induction N with
  | zero =>
    refine Finset.sum_eq_zero fun j hj => ?_
    rw [swrrRun]
    have hj' : j < (List.replicate w.length (0 : Int)).length := by
      simpa using Finset.mem_range.mp hj
    rw [List.getD_eq_getElem _ _ hj', List.getElem_replicate]
  | succ N ih =>
    cases hstep : swrrStep w (swrrRun w N) with
    | none => rw [swrrRun_succ_none w N hstep]; exact ih
    | some r =>
      match r with
      | (m, c') =>
        rw [swrrRun_succ_some w N (m, c') hstep]
        obtain ⟨hmlt, _, hc'⟩ := swrrStep_some hstep
        have hlenrun : (swrrRun w N).length = w.length := swrrRun_length w N
        have hlena : (List.zipWith (· + ·) (swrrRun w N) w).length = w.length := by
          rw [List.length_zipWith, hlenrun]
          omega
        have hm : m ∈ Finset.range w.length :=
          Finset.mem_range.mpr (by omega)
        rw [hc', sum_set_mem _ _ _ _ hm hmlt]
        have hsa : ∑ j ∈ Finset.range w.length,
            (List.zipWith (· + ·) (swrrRun w N) w).getD j 0 =
            (∑ j ∈ Finset.range w.length, (swrrRun w N).getD j 0) +
            ∑ j ∈ Finset.range w.length, w.getD j 0 := by
          rw [← Finset.sum_add_distrib]
          refine Finset.sum_congr rfl fun j hj => ?_
          have hjn := Finset.mem_range.mp hj
          exact getD_zipWith_add _ _ j (by omega) hjn
        rw [hsa, ih, sum_range_getD]
        ring

/-- The inductive invariant of the smooth weighted round robin: for
every set s of host indices the sum of their current weights is at most
card s * (n - card s) * W, where W bounds the weights. -/
theorem swrr_topk (w : List Int) (W : Int)
    (hw0 : ∀ j, j < w.length → 0 ≤ w.getD j 0)
    (hwW : ∀ j, j < w.length → w.getD j 0 ≤ W) :
    ∀ (N : Nat) (s : Finset ℕ), (∀ j ∈ s, j < w.length) →
    ∑ j ∈ s, (swrrRun w N).getD j 0 ≤
      (s.card : Int) * ((w.length : Int) - s.card) * W := by
  intro N
  induction N with
  | zero =>
    intro s hs
    have hsum0 : ∑ j ∈ s, (swrrRun w 0).getD j 0 = 0 := by
      refine Finset.sum_eq_zero fun j hj => ?_
      rw [swrrRun]
      have hj' : j < (List.replicate w.length (0 : Int)).length := by
        simpa using hs j hj
      rw [List.getD_eq_getElem _ _ hj', List.getElem_replicate]
    rw [hsum0]
    rcases s.eq_empty_or_nonempty with he | hne
    · subst he; simp
    · obtain ⟨j0, hj0⟩ := hne
      have hW0 : 0 ≤ W := le_trans (hw0 j0 (hs j0 hj0)) (hwW j0 (hs j0 hj0))
      have hcard : s.card ≤ w.length := by
        have hsub : s ⊆ Finset.range w.length :=
          fun j hj => Finset.mem_range.mpr (hs j hj)
        simpa using Finset.card_le_card hsub
      have h1 : (0 : Int) ≤ (s.card : Int) := by positivity
      have h2 : (0 : Int) ≤ (w.length : Int) - s.card := by
        have := Int.ofNat_le.mpr hcard
        omega
      positivity
  | succ N ih =>
    intro s hs
    have hlenrun : (swrrRun w N).length = w.length := swrrRun_length w N
    cases hstep : swrrStep w (swrrRun w N) with
    | none => rw [swrrRun_succ_none w N hstep]; exact ih s hs
    | some r =>
      match r with
      | (m, c') =>
        rw [swrrRun_succ_some w N (m, c') hstep]
        obtain ⟨hmlt, hmax, hc'⟩ := swrrStep_some hstep
        have hlena : (List.zipWith (· + ·) (swrrRun w N) w).length = w.length := by
          rw [List.length_zipWith, hlenrun]; omega
        have hmw : m < w.length := by omega
        have hsa : ∀ (t : Finset ℕ), (∀ j ∈ t, j < w.length) →
            ∑ j ∈ t, (List.zipWith (· + ·) (swrrRun w N) w).getD j 0 =
            (∑ j ∈ t, (swrrRun w N).getD j 0) + ∑ j ∈ t, w.getD j 0 := by
          intro t ht
          rw [← Finset.sum_add_distrib]
          refine Finset.sum_congr rfl fun j hj => ?_
          exact getD_zipWith_add _ _ j (by rw [hlenrun]; exact ht j hj) (ht j hj)
        have hW0 : 0 ≤ W := le_trans (hw0 m hmw) (hwW m hmw)
        by_cases hm : m ∈ s
        · rw [hc', sum_set_mem _ _ _ _ hm hmlt]
          have hsw : ∑ j ∈ s, w.getD j 0 ≤ w.sum := by
            rw [← sum_range_getD]
            refine Finset.sum_le_sum_of_subset_of_nonneg
              (fun j hj => Finset.mem_range.mpr (hs j hj)) ?_
            intro j hj _
            exact hw0 j (Finset.mem_range.mp hj)
          have := ih s hs
          rw [hsa s hs]
          linarith
        · rw [hc', sum_set_not_mem _ _ _ _ hm]
          have hcard1 : s.card + 1 ≤ w.length := by
            have hsub : insert m s ⊆ Finset.range w.length := by
              intro j hj
              rcases Finset.mem_insert.mp hj with he | hjs
              · exact Finset.mem_range.mpr (he ▸ hmw)
              · exact Finset.mem_range.mpr (hs j hjs)
            have := Finset.card_le_card hsub
            rw [Finset.card_insert_of_not_mem hm] at this
            simpa using this
          have hs' : ∀ j ∈ insert m s, j < w.length := by
            intro j hj
            rcases Finset.mem_insert.mp hj with he | hjs
            · exact he ▸ hmw
            · exact hs j hjs
          have h1 : ∑ j ∈ s, (List.zipWith (· + ·) (swrrRun w N) w).getD j 0 ≤
              (s.card : Int) *
                (List.zipWith (· + ·) (swrrRun w N) w).getD m 0 := by
            have := Finset.sum_le_card_nsmul s
              (fun j => (List.zipWith (· + ·) (swrrRun w N) w).getD j 0)
              ((List.zipWith (· + ·) (swrrRun w N) w).getD m 0)
              (fun j hj => hmax j (by rw [hlena]; exact hs j hj))
            simpa [nsmul_eq_mul] using this
          have h2 : ∑ j ∈ insert m s, w.getD j 0 ≤ ((s.card : Int) + 1) * W := by
            have := Finset.sum_le_card_nsmul (insert m s)
              (fun j => w.getD j 0) W (fun j hj => hwW j (hs' j hj))
            rw [Finset.card_insert_of_not_mem hm] at this
            have h := this
            simpa [nsmul_eq_mul, add_mul] using h
          have h3 := ih (insert m s) hs'
          rw [Finset.card_insert_of_not_mem hm] at h3
          push_cast at h3
          have h4 : ∑ j ∈ insert m s,
              (List.zipWith (· + ·) (swrrRun w N) w).getD j 0 =
              (List.zipWith (· + ·) (swrrRun w N) w).getD m 0 +
              ∑ j ∈ s, (List.zipWith (· + ·) (swrrRun w N) w).getD j 0 :=
            Finset.sum_insert hm
          have h5 : ∑ j ∈ insert m s,
              (List.zipWith (· + ·) (swrrRun w N) w).getD j 0 ≤
              ((s.card : Int) + 1) * ((w.length : Int) - s.card) * W := by
            rw [hsa (insert m s) hs']
            have hring : ((s.card : Int) + 1) * ((w.length : Int) - (s.card + 1)) * W
                + ((s.card : Int) + 1) * W =
                ((s.card : Int) + 1) * ((w.length : Int) - s.card) * W := by ring
            linarith
          have hx1 : ((s.card : Int) + 1) *
              (∑ j ∈ s, (List.zipWith (· + ·) (swrrRun w N) w).getD j 0) ≤
              (s.card : Int) * (∑ j ∈ insert m s,
                (List.zipWith (· + ·) (swrrRun w N) w).getD j 0) := by
            rw [h4]
            have he1 : ((s.card : Int) + 1) *
                (∑ j ∈ s, (List.zipWith (· + ·) (swrrRun w N) w).getD j 0) =
                (s.card : Int) *
                (∑ j ∈ s, (List.zipWith (· + ·) (swrrRun w N) w).getD j 0) +
                ∑ j ∈ s, (List.zipWith (· + ·) (swrrRun w N) w).getD j 0 := by
              ring
            have he2 : (s.card : Int) *
                ((List.zipWith (· + ·) (swrrRun w N) w).getD m 0 +
                  ∑ j ∈ s, (List.zipWith (· + ·) (swrrRun w N) w).getD j 0) =
                (s.card : Int) *
                (∑ j ∈ s, (List.zipWith (· + ·) (swrrRun w N) w).getD j 0) +
                (s.card : Int) *
                (List.zipWith (· + ·) (swrrRun w N) w).getD m 0 := by
              ring
            rw [he1, he2]
            linarith
          have hx2 : (s.card : Int) * (∑ j ∈ insert m s,
              (List.zipWith (· + ·) (swrrRun w N) w).getD j 0) ≤
              (s.card : Int) *
                (((s.card : Int) + 1) * ((w.length : Int) - s.card) * W) :=
            mul_le_mul_of_nonneg_left h5 (by positivity)
          have hx3 : ((s.card : Int) + 1) *
              (∑ j ∈ s, (List.zipWith (· + ·) (swrrRun w N) w).getD j 0) ≤
              ((s.card : Int) + 1) *
                ((s.card : Int) * ((w.length : Int) - s.card) * W) := by
            have he3 : (s.card : Int) *
                (((s.card : Int) + 1) * ((w.length : Int) - s.card) * W) =
                ((s.card : Int) + 1) *
                ((s.card : Int) * ((w.length : Int) - s.card) * W) := by
              ring
            linarith
          exact le_of_mul_le_mul_left hx3 (by positivity)

/-- The current weight of every host stays within (n - 1) * W of zero. -/
theorem swrr_cw_bound (w : List Int) (W : Int)
    (hw0 : ∀ j, j < w.length → 0 ≤ w.getD j 0)
    (hwW : ∀ j, j < w.length → w.getD j 0 ≤ W)
    (N : Nat) (i : Nat) (hi : i < w.length) :
    |(swrrRun w N).getD i 0| ≤ ((w.length : Int) - 1) * W := by
  have hn1 : 1 ≤ w.length := by omega
  have hupper : (swrrRun w N).getD i 0 ≤ ((w.length : Int) - 1) * W := by
    have := swrr_topk w W hw0 hwW N {i} (by simpa using hi)
    simpa using this
  have hlower : -(((w.length : Int) - 1) * W) ≤ (swrrRun w N).getD i 0 := by
    have hzero := swrr_sum_zero w N
    have hi' : i ∈ Finset.range w.length := Finset.mem_range.mpr hi
    have hsplit : ∑ j ∈ (Finset.range w.length).erase i,
        (swrrRun w N).getD j 0 + (swrrRun w N).getD i 0 = 0 := by
      rw [Finset.sum_erase_add _ _ hi']
      exact hzero
    have htop := swrr_topk w W hw0 hwW N ((Finset.range w.length).erase i)
      (fun j hj => Finset.mem_range.mp (Finset.mem_of_mem_erase hj))
    rw [Finset.card_erase_of_mem hi', Finset.card_range] at htop
    have hcast : ((w.length - 1 : ℕ) : Int) = (w.length : Int) - 1 := by
      omega
    rw [hcast] at htop
    have hone : (w.length : Int) - ((w.length : Int) - 1) = 1 := by ring
    rw [hone, mul_one] at htop
    linarith
  exact abs_le.mpr ⟨hlower, hupper⟩

/-- The exact relation between the current weight, the pick count and
the weight: cw_i after N picks equals N * w_i - S * count_i. -/
theorem swrr_count_relation (w : List Int) (i : Nat) (hi : i < w.length) :
    ∀ N, (swrrRun w N).getD i 0 =
      (N : Int) * w.getD i 0 - w.sum * (swrrCount w i N : Int) := by
  intro N
  induction N with
  | zero =>
    rw [swrrRun, swrrCount]
    have hi' : i < (List.replicate w.length (0 : Int)).length := by simpa using hi
    rw [List.getD_eq_getElem _ _ hi', List.getElem_replicate]
    simp
  | succ N ih =>
    have hlenrun : (swrrRun w N).length = w.length := swrrRun_length w N
    cases hstep : swrrStep w (swrrRun w N) with
    | none =>
      exfalso
      have hl : w.length = 0 := by
        have h2 := congrArg List.length (swrrStep_none hstep)
        rwa [List.length_zipWith, hlenrun, min_self, List.length_nil] at h2
      omega
    | some r =>
      match r with
      | (m, c') =>
        rw [swrrRun_succ_some w N (m, c') hstep]
        obtain ⟨hmlt, _, hc'⟩ := swrrStep_some hstep
        have hpick : swrrPickAt w N = some m := by
          rw [swrrPickAt, hstep]; rfl
        rw [swrrCount, hpick]
        by_cases him : i = m
        · subst him
          rw [hc', getD_set_self_int _ _ _ hmlt,
            getD_zipWith_add _ _ i (by omega) hi, if_pos rfl]
          push_cast
          rw [ih]
          ring
        · rw [hc', getD_set_ne_int _ m i _ (fun he => him he.symm),
            getD_zipWith_add _ _ i (by omega) hi,
            if_neg (fun hcon => him (Option.some.inj hcon).symm)]
          push_cast
          rw [ih]
          ring

/-- The maximum of a list of non-negative integers (0 when empty). -/
def maxOf (l : List Int) : Int := l.foldr max 0

theorem getD_le_maxOf : ∀ (l : List Int) (j : Nat), j < l.length →
    l.getD j 0 ≤ maxOf l := by
  intro l
  induction l with
  | nil => intro j hj; simp at hj
  | cons x t ih =>
    intro j hj
    cases j with
    | zero => simpa [maxOf] using le_max_left x (t.foldr max 0)
    | succ j2 =>
      have := ih j2 (by simpa using hj)
      calc (x :: t).getD (j2 + 1) 0 = t.getD j2 0 := by simp
      _ ≤ maxOf t := this
      _ ≤ maxOf (x :: t) := by simpa [maxOf] using le_max_right x (t.foldr max 0)

/-- The drift bound: with weights between 1 and W = max(w), over N
picks the scaled count S * count_i stays within S * W of N * w_i. -/
theorem swrr_drift (w : List Int)
    (hw1 : ∀ j, j < w.length → 1 ≤ w.getD j 0)
    (N : Nat) (i : Nat) (hi : i < w.length) :
    |w.sum * (swrrCount w i N : Int) - (N : Int) * w.getD i 0| ≤
      w.sum * maxOf w := by
  have hw0 : ∀ j, j < w.length → 0 ≤ w.getD j 0 :=
    fun j hj => le_trans zero_le_one (hw1 j hj)
  have hwW : ∀ j, j < w.length → w.getD j 0 ≤ maxOf w :=
    fun j hj => getD_le_maxOf w j hj
  have hb := swrr_cw_bound w (maxOf w) hw0 hwW N i hi
  have hrel := swrr_count_relation w i hi N
  have h1 : |w.sum * (swrrCount w i N : Int) - (N : Int) * w.getD i 0| =
      |(swrrRun w N).getD i 0| := by
    rw [abs_sub_comm, hrel]
  have hnS : (w.length : Int) ≤ w.sum := by
    rw [← sum_range_getD]
    calc (w.length : Int) = ∑ _j ∈ Finset.range w.length, (1 : Int) := by simp
    _ ≤ ∑ j ∈ Finset.range w.length, w.getD j 0 :=
      Finset.sum_le_sum fun j hj => hw1 j (Finset.mem_range.mp hj)
  have hW0 : 0 ≤ maxOf w := le_trans (le_trans zero_le_one (hw1 i hi)) (hwW i hi)
  have h2 : ((w.length : Int) - 1) * maxOf w ≤ w.sum * maxOf w :=
    mul_le_mul_of_nonneg_right (by linarith) hW0
  rw [h1]
  linarith

/-- On a fully healthy host set whose records carry effectiveWeight
equal to weight, one pass of the swrrLoop adds every host's weight to
its currentWeight, leaves weight and effectiveWeight unchanged,
accumulates the total of the weights, and selects by the selStep fold
over the updated currentWeights. -/
theorem swrrLoop_healthy_sim :
    ∀ (hosts : List Host) (wv cv : List Int),
    wv.length = hosts.length → cv.length = hosts.length →
    (∀ h ∈ hosts, h.healthy = true) →
    ∀ (idx : Nat) (total : Int) (sel : Option (Nat × Int)),
    swrrLoop (hosts.zip
        (List.zipWith (fun x c => (⟨x, c, x⟩ : hostSmoothWeighted)) wv cv))
        idx total sel =
      (List.zipWith (fun x c => (⟨x, c + x, x⟩ : hostSmoothWeighted)) wv cv,
       total + wv.sum,
       selFold (List.zipWith (· + ·) cv wv) idx sel) := by
  intro hosts
  induction hosts with
  | nil =>
    intro wv cv h1 h2 hh idx total sel
    have hwv : wv = [] := List.eq_nil_of_length_eq_zero (by simpa using h1)
    have hcv : cv = [] := List.eq_nil_of_length_eq_zero (by simpa using h2)
    subst hwv
    subst hcv
    simp [swrrLoop, selFold]
  | cons hst rest ih =>
    intro wv cv h1 h2 hh idx total sel
    match wv, cv with
    | [], _ => exact absurd h1 (by simp)
    | x :: xs, [] => exact absurd h2 (by simp)
    | x :: xs, c :: cs =>
      rw [List.zipWith_cons_cons, List.zip_cons_cons, swrrLoop,
        if_pos (hh hst (List.mem_cons_self hst rest))]
      dsimp only
      have hsel2 : (match sel with
          | none => some (idx, c + x)
          | some (si, scw) =>
            if c + x > scw then some (idx, c + x) else some (si, scw)) =
          selStep sel idx (c + x) := by
        cases sel with
        | none => rfl
        | some p => rfl
      rw [hsel2, ih xs cs (by simpa using h1) (by simpa using h2)
        (fun h hm => hh h (List.mem_cons_of_mem _ hm)) (idx + 1) (total + x) _]
      simp only [List.zipWith_cons_cons, List.sum_cons]
      rw [selFold]
      refine congrArg₂ _ ?_ (congrArg₂ _ ?_ rfl)
      · simp [lt_irrefl]
      · ring

theorem zipRec_shift (wv cv : List Int) :
    List.zipWith (fun x c => (⟨x, c + x, x⟩ : hostSmoothWeighted)) wv cv =
    List.zipWith (fun x c => (⟨x, c, x⟩ : hostSmoothWeighted)) wv
      (List.zipWith (· + ·) cv wv) := by
  induction wv generalizing cv with
  | nil => simp
  | cons x xs ih =>
    cases cv with
    | nil => simp
    | cons c cs => simp [ih]

theorem getD_zipWith_rec (wv a : List Int) (m : Nat) (h1 : m < wv.length)
    (h2 : m < a.length) :
    (List.zipWith (fun x c => (⟨x, c, x⟩ : hostSmoothWeighted)) wv a).getD
        m default =
      ⟨wv.getD m 0, a.getD m 0, wv.getD m 0⟩ := by
  rw [List.getD_eq_getElem _ _ (by rw [List.length_zipWith]; omega),
    List.getElem_zipWith, List.getD_eq_getElem _ _ h1,
    List.getD_eq_getElem _ _ h2]

theorem zipWith_set_right (wv a : List Int) (m : Nat) (v : Int)
    (h1 : m < wv.length) (h2 : m < a.length) :
    (List.zipWith (fun x c => (⟨x, c, x⟩ : hostSmoothWeighted)) wv a).set m
        ⟨wv.getD m 0, v, wv.getD m 0⟩ =
    List.zipWith (fun x c => (⟨x, c, x⟩ : hostSmoothWeighted)) wv (a.set m v) := by
  induction wv generalizing a m with
  | nil => simp at h1
  | cons x xs ih =>
    cases a with
    | nil => simp at h2
    | cons c cs =>
      cases m with
      | zero => simp
      | succ m2 =>
        simp only [List.zipWith_cons_cons, List.getD_cons_succ,
          List.set_cons_succ]
        rw [ih cs m2 (by simpa using h1) (by simpa using h2)]

/-- C8: smoothWeightedRRLoadBalancer.ChooseHost on a stable, fully
healthy host set with integer weights wv (records carry
effectiveWeight = weight and arbitrary currentWeights cv): the pick
adds every host's effectiveWeight to its currentWeight, selects the
first host attaining the maximum updated currentWeight and subtracts
the total weight from the winner's currentWeight, leaving weight and
effectiveWeight untouched; and over N picks from the zero-initialized
state the pick count of host i scaled by S = sum of weights stays
within S * max(w) of N * w_i, i.e. the pick frequency differs from
N * w_i / S by a drift of at most max(w). -/
theorem smooth_wrr_spec (hosts : List Host) (wv cv : List Int)
    (hveq : wv = hosts.map (fun h => (h.weight : Int)))
    (hlen2 : cv.length = hosts.length)
    (hh : ∀ h ∈ hosts, h.healthy = true)
    (hne : hosts ≠ [])
    (hw1 : ∀ j, j < wv.length → 1 ≤ wv.getD j 0)
    (N i : Nat) (hi : i < wv.length) :
    (∃ m y, winner (List.zipWith (· + ·) cv wv) = some (m, y) ∧
      m < wv.length ∧
      (∀ j, j < wv.length → (List.zipWith (· + ·) cv wv).getD j 0 ≤ y) ∧
      smoothWeightedRRChooseHost hosts
          (List.zipWith (fun x c => (⟨x, c, x⟩ : hostSmoothWeighted)) wv cv) =
        (some (hosts.getD m default),
         List.zipWith (fun x c => (⟨x, c, x⟩ : hostSmoothWeighted)) wv
           ((List.zipWith (· + ·) cv wv).set m (y - wv.sum)))) ∧
    |wv.sum * (swrrCount wv i N : Int) - (N : Int) * wv.getD i 0| ≤
      wv.sum * maxOf wv := by
  have hlen1 : wv.length = hosts.length := by rw [hveq]; simp
  have hnlen : 0 < wv.length := by
    rw [hlen1]
    exact List.length_pos.mpr hne
  have hlena : (List.zipWith (· + ·) cv wv).length = wv.length := by
    rw [List.length_zipWith]
    omega
  have hane : List.zipWith (· + ·) cv wv ≠ [] := by
    intro he
    have := congrArg List.length he
    rw [hlena, List.length_nil] at this
    omega
  cases hwin : winner (List.zipWith (· + ·) cv wv) with
  | none =>
    exfalso
    have := winner_isSome (List.zipWith (· + ·) cv wv) hane
    rw [hwin] at this
    cases this
  | some p =>
    match p with
    | (m, y) =>
      obtain ⟨hm1, hm2, hm3⟩ := winner_spec hwin
      refine ⟨⟨m, y, rfl, by omega, fun j hj => hm3 j (by omega), ?_⟩,
        swrr_drift wv hw1 N i hi⟩
      have hsim := swrrLoop_healthy_sim hosts wv cv hlen1 hlen2 hh 0 0 none
      have hwin' : selFold (List.zipWith (· + ·) cv wv) 0 none = some (m, y) :=
        hwin
      simp only [smoothWeightedRRChooseHost]
      rw [hsim]
      dsimp only
      rw [hwin']
      dsimp only
      rw [zipRec_shift, getD_zipWith_rec wv _ m (by omega) hm1]
      dsimp only
      rw [hm2, zero_add, zipWith_set_right wv _ m (y - wv.sum) (by omega) hm1]

/-- Concrete instance of smooth_wrr_spec on two healthy hosts of
weights 1 and 2: the pick at currentWeights (0, 0) and the drift bound
after 4 picks for host 1. -/
theorem smooth_wrr_spec_witness :
    (∃ m y, winner (List.zipWith (· + ·) [(0 : Int), 0] [(1 : Int), 2]) =
        some (m, y) ∧
      m < ([(1 : Int), 2] : List Int).length ∧
      (∀ j, j < ([(1 : Int), 2] : List Int).length →
        (List.zipWith (· + ·) [(0 : Int), 0] [(1 : Int), 2]).getD j 0 ≤ y) ∧
      smoothWeightedRRChooseHost
          [⟨"a", 1, true, 0⟩, ⟨"b", 2, true, 0⟩]
          (List.zipWith (fun x c => (⟨x, c, x⟩ : hostSmoothWeighted))
            [(1 : Int), 2] [(0 : Int), 0]) =
        (some (([⟨"a", 1, true, 0⟩, ⟨"b", 2, true, 0⟩] : List Host).getD
          m default),
         List.zipWith (fun x c => (⟨x, c, x⟩ : hostSmoothWeighted))
           [(1 : Int), 2]
           ((List.zipWith (· + ·) [(0 : Int), 0] [(1 : Int), 2]).set m
             (y - ([(1 : Int), 2] : List Int).sum)))) ∧
    |([(1 : Int), 2] : List Int).sum * (swrrCount [(1 : Int), 2] 1 4 : Int) -
        (4 : Int) * ([(1 : Int), 2] : List Int).getD 1 0| ≤
      ([(1 : Int), 2] : List Int).sum * maxOf [(1 : Int), 2] :=
  smooth_wrr_spec [⟨"a", 1, true, 0⟩, ⟨"b", 2, true, 0⟩] [(1 : Int), 2]
    [(0 : Int), 0] (by decide) (by decide) (by decide) (by decide)
    (by decide) 4 1 (by decide)

end LB

end Mosn
